import Mathlib

/-!
Verification of the storage layer of the Monarch-Labs token optimizer:
the bounded TTL cache (`SimpleCache`, src cache module) and the persistent
history store (src history module), shallowly embedded over explicit state.

Modelling conventions:
* JS `Date.now()` is an explicit `now : Nat` parameter of each public call
  (a single timestamp per call).
* A JS `Map` is an association list in key-insertion order with unique keys;
  `Map.set` on an existing key updates in place, on a new key appends.
* `localStorage` is a `Store`/cache-state record holding the blob stored
  under the component's own key, the total byte size of the other keys,
  a counter of `setItem` attempts, and an adapter behaviour `failAt`
  assigning each successive `setItem` attempt an outcome
  (ok / QuotaExceeded / other error).
* JS numbers holding timestamps, sizes and counters are `Nat`
  (the code never produces negative values in these positions;
  `now - timestamp` with a monotone clock is `Nat` subtraction).
  The sentinel `Infinity` of `oldestTimestamp` is `Option Nat` with
  `none` standing for infinity.
* `Array.prototype.sort` is a stable sort w.r.t. the comparator
  `(a, b) => b.timestamp - a.timestamp`, embedded as stable insertion sort.
* String sizes are UTF-8 byte lengths (`new Blob([s]).size`), and
  `JSON.stringify` of a history item is spelled out character by character
  over the record fields; the opaque `result` payload is carried in
  already-serialized form (a JSON text string).
-/

namespace TokOpt

/-- Character class of JavaScript string `trim()` (ASCII part). -/
def isJsWS (c : Char) : Bool :=
  c == ' ' || c == '\t' || c == '\n' || c == '\r' || c == '\x0b' || c == '\x0c'

/-- List-level trim: drop leading and trailing whitespace. -/
def trimList (l : List Char) : List Char :=
  ((((l.dropWhile isJsWS).reverse).dropWhile isJsWS).reverse)

/-- Model of JS `String.prototype.trim`. -/
def jsTrim (s : String) : String :=
  String.mk (trimList s.data)

/-- Model of JS `String.prototype.toLowerCase` (ASCII case folding). -/
def jsLower (s : String) : String :=
  String.mk (s.data.map Char.toLower)

/-- Model of JS `String.prototype.includes` (substring test). -/
def jsIncludes (s sub : String) : Bool :=
  decide (sub.data <:+: s.data)

/-- Byte length of one character in UTF-8. -/
def charUtf8 (c : Char) : Nat :=
  if c.val < 0x80 then 1
  else if c.val < 0x800 then 2
  else if c.val < 0x10000 then 3
  else 4

/-- UTF-8 byte length of a string (the value of `new Blob([s]).size`). -/
def utf8Len (s : String) : Nat :=
  (s.data.map charUtf8).sum

theorem utf8Len_append (a b : String) : utf8Len (a ++ b) = utf8Len a + utf8Len b := by
  show ((a.data ++ b.data).map charUtf8).sum = (a.data.map charUtf8).sum + (b.data.map charUtf8).sum
  rw [List.map_append, List.sum_append]

theorem utf8Len_mk_append (a b : List Char) :
    utf8Len (String.mk (a ++ b)) = utf8Len (String.mk a) + utf8Len (String.mk b) := by
  show ((a ++ b).map charUtf8).sum = (a.map charUtf8).sum + (b.map charUtf8).sum
  rw [List.map_append, List.sum_append]

theorem utf8Len_replicate (n : Nat) (c : Char) (h : charUtf8 c = 1) :
    utf8Len (String.mk (List.replicate n c)) = n := by
  show ((List.replicate n c).map charUtf8).sum = n
  rw [List.map_replicate, h, List.sum_replicate, smul_eq_mul, Nat.mul_one]

/-- Hexadecimal digit for the JSON `\u00XX` escapes of rare control characters. -/
def hexDigit (n : Nat) : Char :=
  if n < 10 then Char.ofNat (48 + n) else Char.ofNat (87 + n)

/-- Escape of one character under `JSON.stringify`. -/
def jsonEscapeChar (c : Char) : List Char :=
  if c = '"' then ['\\', '"']
  else if c = '\\' then ['\\', '\\']
  else if c = '\n' then ['\\', 'n']
  else if c = '\r' then ['\\', 'r']
  else if c = '\t' then ['\\', 't']
  else if c = '\x08' then ['\\', 'b']
  else if c = '\x0c' then ['\\', 'f']
  else if c.val < 32 then
    ['\\', 'u', '0', '0', hexDigit (c.val.toNat / 16), hexDigit (c.val.toNat % 16)]
  else [c]

def jsonEscapeList : List Char → List Char
  | [] => []
  | c :: cs => jsonEscapeChar c ++ jsonEscapeList cs

/-- String content escaped as inside a `JSON.stringify` string literal. -/
def jsonEscape (s : String) : String :=
  String.mk (jsonEscapeList s.data)

theorem jsonEscapeList_replicate_of_plain (n : Nat) (c : Char)
    (h : jsonEscapeChar c = [c]) :
    jsonEscapeList (List.replicate n c) = List.replicate n c := by
  induction n with
  | zero => rfl
  | succ m ih =>
      rw [List.replicate_succ, jsonEscapeList, h, ih]
      rfl

section KV

variable {α : Type}

/-- Lookup in a JS-`Map`-like association list. -/
def lookupKV : List (String × α) → String → Option α
  | [], _ => none
  | (k', v) :: rest, k => if k' = k then some v else lookupKV rest k

/-- JS `Map.set`: update in place if the key is present, append otherwise. -/
def setKV : List (String × α) → String → α → List (String × α)
  | [], k, v => [(k, v)]
  | (k', v') :: rest, k, v =>
      if k' = k then (k, v) :: rest else (k', v') :: setKV rest k v

/-- JS `Map.delete`: remove the (unique) entry with the key, if any. -/
def delKV : List (String × α) → String → List (String × α)
  | [], _ => []
  | (k', v') :: rest, k => if k' = k then rest else (k', v') :: delKV rest k

/-- Values of the map in key-insertion order (`Array.from(m.values())`). -/
def valuesKV (m : List (String × α)) : List α :=
  m.map Prod.snd

theorem lookupKV_setKV_self (m : List (String × α)) (k : String) (v : α) :
    lookupKV (setKV m k v) k = some v := by
  induction m with
  | nil => simp [setKV, lookupKV]
  | cons p rest ih =>
      obtain ⟨k', v'⟩ := p
      by_cases h : k' = k
      · simp [setKV, h, lookupKV]
      · simp [setKV, h, lookupKV, ih]

theorem lookupKV_setKV_ne (m : List (String × α)) (k k0 : String) (v : α)
    (h : k ≠ k0) : lookupKV (setKV m k v) k0 = lookupKV m k0 := by
  induction m with
  | nil => simp [setKV, lookupKV, h]
  | cons p rest ih =>
      obtain ⟨k', v'⟩ := p
      by_cases h' : k' = k
      · subst h'
        simp [setKV, lookupKV, h]
      · simp [setKV, h', lookupKV, ih]

theorem length_setKV (m : List (String × α)) (k : String) (v : α) :
    (setKV m k v).length = if (lookupKV m k).isNone then m.length + 1 else m.length := by
  induction m with
  | nil => simp [setKV, lookupKV]
  | cons p rest ih =>
      obtain ⟨k', v'⟩ := p
      by_cases h : k' = k
      · simp [setKV, h, lookupKV]
      · simp only [setKV, if_neg h, lookupKV, List.length_cons, ih]
        by_cases h2 : (lookupKV rest k).isNone <;> simp [h2, h]

theorem lookupKV_eq_none_of_not_mem (m : List (String × α)) (k : String)
    (h : k ∉ m.map Prod.fst) : lookupKV m k = none := by
  induction m with
  | nil => rfl
  | cons p rest ih =>
      obtain ⟨k', v'⟩ := p
      simp only [List.map_cons, List.mem_cons, not_or] at h
      simp only [lookupKV, if_neg (Ne.symm h.1)]
      exact ih h.2

theorem lookupKV_delKV_self (m : List (String × α)) (k : String)
    (hnd : (m.map Prod.fst).Nodup) : lookupKV (delKV m k) k = none := by
  induction m with
  | nil => rfl
  | cons p rest ih =>
      obtain ⟨k', v'⟩ := p
      simp only [List.map_cons, List.nodup_cons] at hnd
      by_cases h : k' = k
      · subst h
        simpa [delKV] using lookupKV_eq_none_of_not_mem rest k' hnd.1
      · simp [delKV, h, lookupKV, ih hnd.2]

theorem lookupKV_delKV_ne (m : List (String × α)) (k k0 : String)
    (h : k ≠ k0) : lookupKV (delKV m k) k0 = lookupKV m k0 := by
  induction m with
  | nil => rfl
  | cons p rest ih =>
      obtain ⟨k', v'⟩ := p
      by_cases h' : k' = k
      · subst h'
        simp [delKV, lookupKV, h]
      · simp [delKV, h', lookupKV, ih]

theorem length_delKV (m : List (String × α)) (k : String) :
    (delKV m k).length = if (lookupKV m k).isNone then m.length else m.length - 1 := by
  induction m with
  | nil => simp [delKV, lookupKV]
  | cons p rest ih =>
      obtain ⟨k', v'⟩ := p
      by_cases h : k' = k
      · simp [delKV, h, lookupKV]
      · simp only [delKV, if_neg h, lookupKV, if_neg h, List.length_cons, ih]
        by_cases h2 : (lookupKV rest k).isNone
        · simp [h2]
        · simp only [if_neg h2]
          have : rest.length ≠ 0 := by
            intro h0
            rw [List.length_eq_zero] at h0
            subst h0
            exact h2 rfl
          omega

theorem lookupKV_eq_none_iff {α : Type} (m : List (String × α)) (k : String) :
    lookupKV m k = none ↔ k ∉ m.map Prod.fst := by
  induction m with
  | nil => simp [lookupKV]
  | cons p rest ih =>
      obtain ⟨k', v'⟩ := p
      by_cases h : k' = k
      · subst h
        simp [lookupKV]
      · simp [lookupKV, h, ih, Ne.symm h]

theorem lookupKV_isSome_of_mem_keys {α : Type} (m : List (String × α)) (k : String)
    (h : k ∈ m.map Prod.fst) : (lookupKV m k).isSome = true := by
  rcases ho : lookupKV m k with _ | v
  · exact absurd ((lookupKV_eq_none_iff m k).mp ho) (by simp [h])
  · rfl

theorem delKV_sublist {α : Type} (m : List (String × α)) (k : String) :
    List.Sublist (delKV m k) m := by
  induction m with
  | nil => simp [delKV]
  | cons p rest ih =>
      obtain ⟨k', v'⟩ := p
      by_cases h : k' = k
      · simp [delKV, h, List.sublist_cons_self]
      · simp only [delKV, if_neg h]
        exact List.Sublist.cons₂ _ ih

theorem foldl_delKV_sublist {α : Type} (ks : List String) (m : List (String × α)) :
    List.Sublist (ks.foldl delKV m) m := by
  induction ks generalizing m with
  | nil => simp
  | cons k rest ih => exact (ih (delKV m k)).trans (delKV_sublist m k)

theorem lookupKV_eq_none_of_sublist {α : Type} {m' m : List (String × α)} (k : String)
    (hs : List.Sublist m' m) (h : lookupKV m k = none) : lookupKV m' k = none := by
  rw [lookupKV_eq_none_iff] at h ⊢
  exact fun hmem => h ((hs.map Prod.fst).mem hmem)

theorem keys_setKV {α : Type} (m : List (String × α)) (k : String) (v : α) :
    (setKV m k v).map Prod.fst =
      if k ∈ m.map Prod.fst then m.map Prod.fst else m.map Prod.fst ++ [k] := by
  induction m with
  | nil => simp [setKV]
  | cons p rest ih =>
      obtain ⟨k', v'⟩ := p
      by_cases h : k' = k
      · subst h
        simp [setKV]
      · simp only [setKV, if_neg h, List.map_cons, ih, List.mem_cons]
        by_cases h2 : k ∈ rest.map Prod.fst <;> simp [h2, Ne.symm h]

theorem nodup_keys_setKV {α : Type} (m : List (String × α)) (k : String) (v : α)
    (h : (m.map Prod.fst).Nodup) : ((setKV m k v).map Prod.fst).Nodup := by
  rw [keys_setKV]
  by_cases h2 : k ∈ m.map Prod.fst
  · simpa [h2] using h
  · simp only [if_neg h2]
    simp [List.nodup_append, h, h2]

theorem nodup_keys_delKV {α : Type} (m : List (String × α)) (k : String)
    (h : (m.map Prod.fst).Nodup) : ((delKV m k).map Prod.fst).Nodup :=
  ((delKV_sublist m k).map Prod.fst).nodup h

theorem nodup_keys_foldl_delKV {α : Type} (ks : List String) (m : List (String × α))
    (h : (m.map Prod.fst).Nodup) : ((ks.foldl delKV m).map Prod.fst).Nodup :=
  ((foldl_delKV_sublist ks m).map Prod.fst).nodup h

theorem lookupKV_some_mem {α : Type} (m : List (String × α)) (k : String) (v : α)
    (h : lookupKV m k = some v) : (k, v) ∈ m := by
  induction m with
  | nil => cases h
  | cons p rest ih =>
      obtain ⟨k', v'⟩ := p
      by_cases hk : k' = k
      · subst hk
        rw [lookupKV, if_pos rfl] at h
        cases h
        exact List.mem_cons_self _ _
      · rw [lookupKV, if_neg hk] at h
        exact List.mem_cons_of_mem _ (ih h)

theorem mem_setKV {α : Type} (m : List (String × α)) (k : String) (v : α)
    (p : String × α) (h : p ∈ setKV m k v) : p = (k, v) ∨ p ∈ m := by
  induction m with
  | nil =>
      rw [setKV] at h
      rcases List.mem_singleton.mp h with h
      exact Or.inl h
  | cons q rest ih =>
      obtain ⟨k', v'⟩ := q
      by_cases hk : k' = k
      · rw [setKV, if_pos hk] at h
        rcases List.mem_cons.mp h with h | h
        · exact Or.inl h
        · exact Or.inr (List.mem_cons_of_mem _ h)
      · rw [setKV, if_neg hk] at h
        rcases List.mem_cons.mp h with h | h
        · exact Or.inr (h ▸ List.mem_cons_self _ _)
        · rcases ih h with h | h
          · exact Or.inl h
          · exact Or.inr (List.mem_cons_of_mem _ h)

end KV

namespace Cache

/-- The per-key record of `SimpleCache` (`CacheEntry<T>` of the source). -/
structure Entry (T : Type) where
  data : T
  timestamp : Nat
  ttl : Nat
deriving DecidableEq, Repr

/-- Outcome of one `localStorage.setItem` attempt: success, a
`QuotaExceeded` `DOMException` (code 22), or any other thrown error. -/
inductive WriteOutcome where
  | ok
  | quota
  | other
deriving DecidableEq, Repr

/-- Whole state of one `SimpleCache` instance: the in-memory map (in
key-insertion order), the immutable config, the oldest-key tracking pair
(`oldestTimestamp = none` models the initial `Infinity`), the durable blob
stored under `storageKey`, and the adapter behaviour: `writes` counts the
`setItem` attempts made so far and `failAt i` is the outcome of the `i`-th
attempt. -/
structure CState (T : Type) where
  cache : List (String × Entry T)
  maxSize : Nat
  defaultTTL : Nat
  oldestKey : Option String
  oldestTimestamp : Option Nat
  blob : Option (List (String × Entry T))
  writes : Nat
  failAt : Nat → WriteOutcome

/-- Comparison `t < oldestTimestamp` where `none` stands for `Infinity`. -/
def ltInf (t : Nat) : Option Nat → Bool
  | none => true
  | some m => t < m

/-- One linear scan for the minimum insertion time (`updateOldestKey`). -/
def computeOldest {T : Type} (m : List (String × Entry T)) :
    Option String × Option Nat :=
  m.foldl
    (fun acc p => if ltInf p.2.timestamp acc.2 then (some p.1, some p.2.timestamp) else acc)
    (none, none)

/-- Apply `updateOldestKey` to the state. -/
def updateOldest {T : Type} (s : CState T) : CState T :=
  { s with oldestKey := (computeOldest s.cache).1,
           oldestTimestamp := (computeOldest s.cache).2 }

/-- Lazy-expiry test `now - entry.timestamp > entry.ttl`. -/
def isExpired {T : Type} (now : Nat) (e : Entry T) : Bool :=
  now - e.timestamp > e.ttl

/-- The keys collected by `cleanExpired` before deletion. -/
def cleanKeys {T : Type} (now : Nat) (m : List (String × Entry T)) : List String :=
  (m.filter (fun p => isExpired now p.2)).map Prod.fst

/-- Quota-pressure eviction loop of `saveToStorage`:
`while (size > maxSize * 0.5) { if (oldestKey) { delete; updateOldestKey } else break }`.
`2 * size > maxSize` is the exact integer form of `size > maxSize * 0.5`.
JS truthiness: `oldestKey : string | null` is falsy both for `null` and
for the empty string, so a tracked `""` key also breaks the loop.
The fuel argument only bounds the iteration count; callers pass
`2 * size + 2`, which always suffices (each round either deletes a present
key or refreshes a stale pointer to a present key, or the loop stops). -/
def pruneLoop {T : Type} : Nat → CState T → CState T
  | 0, s => s
  | fuel + 1, s =>
      if 2 * s.cache.length > s.maxSize then
        match s.oldestKey with
        | some ko =>
            if ko = "" then s
            else pruneLoop fuel (updateOldest { s with cache := delKV s.cache ko })
        | none => s
      else s

/-- The single retry of `saveToStorage` after quota-driven pruning: a
second `setItem` attempt whose failure (of any kind) is swallowed. -/
def retryOnce {T : Type} (s3 : CState T) : CState T :=
  match s3.failAt s3.writes with
  | .ok => { s3 with blob := some s3.cache, writes := s3.writes + 1 }
  | _ => { s3 with writes := s3.writes + 1 }

mutual

/-- Model of `SimpleCache.saveToStorage`. On a successful write the blob
becomes a snapshot of the map; a non-quota error is swallowed; on
`QuotaExceeded` the cache runs `cleanExpired`, prunes via the oldest
pointer down to half of `maxSize`, and retries once. Both `saveToStorage`
and `cleanExpired` are given fuel because `cleanExpired` saves again when
it removed something; the real recursion terminates since a second
`cleanExpired` at the same `now` removes nothing, and the public entry
points pass fuel 4, which the call depths never exhaust. -/
def saveToStorageF {T : Type} : Nat → Nat → CState T → CState T
  | 0, _, s => s
  | fuel + 1, now, s =>
      match s.failAt s.writes with
      | .ok => { s with blob := some s.cache, writes := s.writes + 1 }
      | .other => { s with writes := s.writes + 1 }
      | .quota =>
          let s1 : CState T := { s with writes := s.writes + 1 }
          let s2 := (cleanExpiredF fuel now s1).2
          retryOnce (pruneLoop (2 * s2.cache.length + 2) s2)

/-- Model of `SimpleCache.cleanExpired`: collect the expired keys, delete
them, and if anything was removed recompute the oldest pointer and persist. -/
def cleanExpiredF {T : Type} : Nat → Nat → CState T → Nat × CState T
  | 0, _, s => (0, s)
  | fuel + 1, now, s =>
      let ks := cleanKeys now s.cache
      let s1 : CState T := { s with cache := ks.foldl delKV s.cache }
      if 0 < ks.length then
        (ks.length, saveToStorageF fuel now (updateOldest s1))
      else
        (ks.length, s1)

end

/-- Model of `SimpleCache.get` (lazy expiry). Note that the expiry purge
deletes the key from the map without touching the oldest-key pointer. -/
def get {T : Type} (now : Nat) (k : String) (s : CState T) : Option T × CState T :=
  match lookupKV s.cache k with
  | none => (none, s)
  | some e =>
      if isExpired now e then
        (none, saveToStorageF 4 now { s with cache := delKV s.cache k })
      else
        (some e.data, s)

/-- Capacity check of `SimpleCache.set`: when the map already holds
`maxSize` (or more) entries, delete the tracked oldest key and recompute
the pointer. JS truthiness: the guard `if (this.oldestKey)` is falsy both
for `null` and for the empty-string key, so a tracked `""` skips the
eviction. -/
def evictStep {T : Type} (s : CState T) : CState T :=
  if s.maxSize ≤ s.cache.length then
    match s.oldestKey with
    | some ko =>
        if ko = "" then s
        else updateOldest { s with cache := delKV s.cache ko }
    | none => s
  else s

/-- The plain `this.cache.set(key, entry)` of `SimpleCache.set`. -/
def insEntry {T : Type} (k : String) (e : Entry T) (s : CState T) : CState T :=
  { s with cache := setKV s.cache k e }

/-- Opportunistic pointer update of `SimpleCache.set`:
`if (now < this.oldestTimestamp) { oldestKey = key; oldestTimestamp = now }`. -/
def bumpOldest {T : Type} (now : Nat) (k : String) (s : CState T) : CState T :=
  if ltInf now s.oldestTimestamp then
    { s with oldestKey := some k, oldestTimestamp := some now }
  else s

/-- Model of `SimpleCache.set`: evict via the tracked oldest key when at
capacity, insert, opportunistically move the oldest pointer, persist.
(The entry's ttl defaults to the config's `defaultTTL`.) -/
def set {T : Type} (now : Nat) (k : String) (v : T) (ttl : Option Nat)
    (s : CState T) : CState T :=
  saveToStorageF 4 now
    (bumpOldest now k (insEntry k ⟨v, now, ttl.getD s.defaultTTL⟩ (evictStep s)))

/-- Model of `SimpleCache.has` (same expiry semantics as `get`). -/
def hasK {T : Type} (now : Nat) (k : String) (s : CState T) : Bool × CState T :=
  match lookupKV s.cache k with
  | none => (false, s)
  | some e =>
      if isExpired now e then
        (false, saveToStorageF 4 now { s with cache := delKV s.cache k })
      else
        (true, s)

/-- Model of `SimpleCache.delete`: recompute the pointer exactly when the
deleted key was the tracked oldest key. -/
def del {T : Type} (now : Nat) (k : String) (s : CState T) : Bool × CState T :=
  match lookupKV s.cache k with
  | none => (false, s)
  | some _ =>
      (true, saveToStorageF 4 now
        (if s.oldestKey = some k then updateOldest { s with cache := delKV s.cache k }
         else { s with cache := delKV s.cache k }))

/-- Model of `SimpleCache.clear`. -/
def clear {T : Type} (now : Nat) (s : CState T) : CState T :=
  saveToStorageF 4 now { s with cache := [], oldestKey := none, oldestTimestamp := none }

/-- Model of `SimpleCache.cleanExpired` as a public operation. -/
def cleanExpired {T : Type} (now : Nat) (s : CState T) : Nat × CState T :=
  cleanExpiredF 4 now s

/-- Model of `SimpleCache.getStats`: size, maxSize, keys, oldest and newest
entry timestamps. -/
def getStats {T : Type} (s : CState T) :
    Nat × Nat × List String × Option Nat × Option Nat :=
  let ts := s.cache.map (fun p => p.2.timestamp)
  (s.cache.length, s.maxSize, s.cache.map Prod.fst, ts.min?, ts.max?)

/-- One public cache call together with its `Date.now()` timestamp. -/
inductive COp (T : Type) where
  | set (now : Nat) (k : String) (v : T) (ttl : Option Nat)
  | get (now : Nat) (k : String)
  | hasK (now : Nat) (k : String)
  | del (now : Nat) (k : String)
  | clean (now : Nat)
  | clear (now : Nat)
deriving DecidableEq, Repr

/-- Effect of one public call on the state (return value discarded). -/
def stepC {T : Type} (s : CState T) : COp T → CState T
  | .set now k v ttl => set now k v ttl s
  | .get now k => (get now k s).2
  | .hasK now k => (hasK now k s).2
  | .del now k => (del now k s).2
  | .clean now => (cleanExpired now s).2
  | .clear now => clear now s

/-- Run a sequence of public calls. -/
def runC {T : Type} (s : CState T) (ops : List (COp T)) : CState T :=
  ops.foldl stepC s

/-- Map/pointer part of the cache's internal invariant: keys are unique,
the tracked oldest key (when set) is present in the map, and an unset
pointer only occurs with an empty map and `oldestTimestamp = Infinity`. -/
def CInvP {T : Type} (s : CState T) : Prop :=
  (s.cache.map Prod.fst).Nodup ∧
  (∀ ko, s.oldestKey = some ko → (lookupKV s.cache ko).isSome = true) ∧
  (s.oldestKey = none → s.cache = [] ∧ s.oldestTimestamp = none)

/-- Full invariant: map/pointer soundness plus the capacity bound (with a
positive configured capacity, as in every instance the code creates). -/
def CInv {T : Type} (s : CState T) : Prop :=
  CInvP s ∧ 1 ≤ s.maxSize ∧ s.cache.length ≤ s.maxSize

section CacheLemmas

variable {T : Type}

theorem updateOldest_cache (s : CState T) : (updateOldest s).cache = s.cache := rfl

theorem updateOldest_writes (s : CState T) : (updateOldest s).writes = s.writes := rfl

theorem updateOldest_blob (s : CState T) : (updateOldest s).blob = s.blob := rfl

theorem updateOldest_maxSize (s : CState T) : (updateOldest s).maxSize = s.maxSize := rfl

theorem computeOldest_foldl (m : List (String × Entry T))
    (acc : Option String × Option Nat) :
    m.foldl
      (fun acc p => if ltInf p.2.timestamp acc.2 then (some p.1, some p.2.timestamp) else acc)
      acc = acc ∨
      ∃ p, p ∈ m ∧
        (m.foldl
          (fun acc p => if ltInf p.2.timestamp acc.2 then (some p.1, some p.2.timestamp) else acc)
          acc).1 = some p.1 := by
  induction m generalizing acc with
  | nil => exact Or.inl rfl
  | cons q rest ih =>
      simp only [List.foldl_cons]
      rcases ih (if ltInf q.2.timestamp acc.2 then (some q.1, some q.2.timestamp) else acc) with
        h | ⟨p, hp, hp2⟩
      · rw [h]
        by_cases hq : ltInf q.2.timestamp acc.2 = true
        · exact Or.inr ⟨q, by simp, by simp [hq]⟩
        · simp only [hq]
          exact Or.inl (by simp [hq])
      · exact Or.inr ⟨p, by simp [hp], hp2⟩

theorem computeOldest_spec (m : List (String × Entry T)) :
    (m = [] ∧ computeOldest m = (none, none)) ∨
      ∃ p, p ∈ m ∧ (computeOldest m).1 = some p.1 := by
  cases m with
  | nil => exact Or.inl ⟨rfl, rfl⟩
  | cons q rest =>
      right
      have hstep : (if ltInf q.2.timestamp (none : Option Nat) then
          (some q.1, some q.2.timestamp) else ((none : Option String), (none : Option Nat)))
          = (some q.1, some q.2.timestamp) := by simp [ltInf]
      unfold computeOldest
      simp only [List.foldl_cons, hstep]
      rcases computeOldest_foldl rest (some q.1, some q.2.timestamp) with h | ⟨p, hp, hp2⟩
      · exact ⟨q, by simp, by rw [h]⟩
      · exact ⟨p, by simp [hp], hp2⟩

theorem cinvP_updateOldest (s : CState T)
    (hnd : (s.cache.map Prod.fst).Nodup) : CInvP (updateOldest s) := by
  refine ⟨hnd, ?_, ?_⟩
  · intro ko hko
    rcases computeOldest_spec s.cache with ⟨_, h2⟩ | ⟨p, hp, hp2⟩
    · simp only [updateOldest, h2] at hko
      exact absurd hko (by simp)
    · simp only [updateOldest] at hko ⊢
      rw [hp2] at hko
      cases hko
      exact lookupKV_isSome_of_mem_keys _ _ (List.mem_map_of_mem Prod.fst hp)
  · intro hko
    rcases computeOldest_spec s.cache with ⟨h1, h2⟩ | ⟨p, hp, hp2⟩
    · exact ⟨h1, by simp [updateOldest, h2]⟩
    · simp only [updateOldest] at hko
      rw [hp2] at hko
      cases hko

theorem pruneLoop_succ_stop (n : Nat) (s : CState T)
    (hc : ¬ 2 * s.cache.length > s.maxSize) : pruneLoop (n + 1) s = s := by
  unfold pruneLoop
  rw [if_neg hc]

theorem pruneLoop_succ_none (n : Nat) (s : CState T)
    (hc : 2 * s.cache.length > s.maxSize) (hk : s.oldestKey = none) :
    pruneLoop (n + 1) s = s := by
  unfold pruneLoop
  rw [if_pos hc, hk]

theorem pruneLoop_succ_some (n : Nat) (s : CState T) (ko : String)
    (hc : 2 * s.cache.length > s.maxSize) (hk : s.oldestKey = some ko) :
    pruneLoop (n + 1) s =
      if ko = "" then s
      else pruneLoop n (updateOldest { s with cache := delKV s.cache ko }) := by
  conv_lhs => unfold pruneLoop
  rw [if_pos hc, hk]

theorem pruneLoop_const (fuel : Nat) (s : CState T) :
    (pruneLoop fuel s).maxSize = s.maxSize ∧
    (pruneLoop fuel s).defaultTTL = s.defaultTTL ∧
    (pruneLoop fuel s).blob = s.blob ∧
    (pruneLoop fuel s).writes = s.writes ∧
    (pruneLoop fuel s).failAt = s.failAt := by
  induction fuel generalizing s with
  | zero => exact ⟨rfl, rfl, rfl, rfl, rfl⟩
  | succ n ih =>
      by_cases hc : 2 * s.cache.length > s.maxSize
      · cases hk : s.oldestKey with
        | none =>
            rw [pruneLoop_succ_none n s hc hk]
            exact ⟨rfl, rfl, rfl, rfl, rfl⟩
        | some ko =>
            rw [pruneLoop_succ_some n s ko hc hk]
            by_cases hke : ko = ""
            · rw [if_pos hke]
              exact ⟨rfl, rfl, rfl, rfl, rfl⟩
            · rw [if_neg hke]
              exact ih _
      · rw [pruneLoop_succ_stop n s hc]
        exact ⟨rfl, rfl, rfl, rfl, rfl⟩

theorem pruneLoop_sublist (fuel : Nat) (s : CState T) :
    List.Sublist (pruneLoop fuel s).cache s.cache := by
  induction fuel generalizing s with
  | zero => exact List.Sublist.refl _
  | succ n ih =>
      by_cases hc : 2 * s.cache.length > s.maxSize
      · cases hk : s.oldestKey with
        | none => rw [pruneLoop_succ_none n s hc hk]
        | some ko =>
            rw [pruneLoop_succ_some n s ko hc hk]
            by_cases hke : ko = ""
            · rw [if_pos hke]
            · rw [if_neg hke]
              exact (ih _).trans (delKV_sublist _ _)
      · rw [pruneLoop_succ_stop n s hc]

theorem pruneLoop_cinvP (fuel : Nat) (s : CState T) (h : CInvP s) :
    CInvP (pruneLoop fuel s) := by
  induction fuel generalizing s with
  | zero => exact h
  | succ n ih =>
      by_cases hc : 2 * s.cache.length > s.maxSize
      · cases hk : s.oldestKey with
        | none =>
            rw [pruneLoop_succ_none n s hc hk]
            exact h
        | some ko =>
            rw [pruneLoop_succ_some n s ko hc hk]
            by_cases hke : ko = ""
            · rw [if_pos hke]
              exact h
            · rw [if_neg hke]
              exact ih _ (cinvP_updateOldest _ (nodup_keys_delKV _ _ h.1))
      · rw [pruneLoop_succ_stop n s hc]
        exact h

/-- With sound pointer and no empty-string key in the map, the prune loop
reaches half capacity (the JS break on a falsy pointer never fires). -/
theorem pruneLoop_half (fuel : Nat) (s : CState T) (h : CInvP s)
    (hf : s.cache.length + 1 ≤ fuel)
    (hnk : ∀ p ∈ s.cache, p.1 ≠ "") :
    2 * (pruneLoop fuel s).cache.length ≤ s.maxSize := by
  induction fuel generalizing s with
  | zero => omega
  | succ n ih =>
      by_cases hc : 2 * s.cache.length > s.maxSize
      · cases hk : s.oldestKey with
        | none =>
            have := (h.2.2 hk).1
            simp [this] at hc
        | some ko =>
            have hpres : (lookupKV s.cache ko).isSome = true := h.2.1 ko hk
            have hke : ¬ ko = "" := by
              rcases hlk : lookupKV s.cache ko with _ | v
              · rw [hlk] at hpres
                simp at hpres
              · exact hnk (ko, v) (lookupKV_some_mem _ _ _ hlk)
            rw [pruneLoop_succ_some n s ko hc hk, if_neg hke]
            have hlen : (delKV s.cache ko).length = s.cache.length - 1 := by
              rw [length_delKV]
              rcases hlk : lookupKV s.cache ko with _ | v
              · rw [hlk] at hpres
                simp at hpres
              · simp
            have hne : s.cache.length ≠ 0 := by
              intro h0
              rw [List.length_eq_zero] at h0
              rw [h0] at hpres
              simp [lookupKV] at hpres
            have hres := ih (updateOldest { s with cache := delKV s.cache ko })
              (cinvP_updateOldest _ (nodup_keys_delKV _ _ h.1))
              (by simp only [updateOldest_cache]; omega)
              (by
                simp only [updateOldest_cache]
                intro p hp
                exact hnk p ((delKV_sublist s.cache ko).subset hp))
            simpa only [updateOldest_maxSize] using hres
      · rw [pruneLoop_succ_stop n s hc]
        omega

theorem retryOnce_cache (s : CState T) : (retryOnce s).cache = s.cache := by
  unfold retryOnce
  cases s.failAt s.writes <;> rfl

theorem retryOnce_writes (s : CState T) : (retryOnce s).writes = s.writes + 1 := by
  unfold retryOnce
  cases s.failAt s.writes <;> rfl

theorem retryOnce_const (s : CState T) :
    (retryOnce s).maxSize = s.maxSize ∧ (retryOnce s).defaultTTL = s.defaultTTL ∧
    (retryOnce s).failAt = s.failAt ∧ (retryOnce s).oldestKey = s.oldestKey ∧
    (retryOnce s).oldestTimestamp = s.oldestTimestamp := by
  unfold retryOnce
  cases s.failAt s.writes <;> exact ⟨rfl, rfl, rfl, rfl, rfl⟩

theorem retryOnce_blob_ok (s : CState T) (h : s.failAt s.writes = .ok) :
    (retryOnce s).blob = some s.cache := by
  unfold retryOnce
  rw [h]

theorem retryOnce_blob_fail (s : CState T) (h : s.failAt s.writes ≠ .ok) :
    (retryOnce s).blob = s.blob := by
  unfold retryOnce
  cases hw : s.failAt s.writes with
  | ok => exact absurd hw h
  | quota => rfl
  | other => rfl

theorem saveF_eq_ok (n now : Nat) (s : CState T) (h : s.failAt s.writes = .ok) :
    saveToStorageF (n + 1) now s = { s with blob := some s.cache, writes := s.writes + 1 } := by
  unfold saveToStorageF
  rw [h]

theorem saveF_eq_other (n now : Nat) (s : CState T) (h : s.failAt s.writes = .other) :
    saveToStorageF (n + 1) now s = { s with writes := s.writes + 1 } := by
  unfold saveToStorageF
  rw [h]

theorem saveF_eq_quota (n now : Nat) (s : CState T) (h : s.failAt s.writes = .quota) :
    saveToStorageF (n + 1) now s =
      retryOnce (pruneLoop
        (2 * ((cleanExpiredF n now { s with writes := s.writes + 1 }).2).cache.length + 2)
        ((cleanExpiredF n now { s with writes := s.writes + 1 }).2)) := by
  unfold saveToStorageF
  rw [h]

theorem cleanF_eq_pos (n now : Nat) (s : CState T)
    (h : 0 < (cleanKeys now s.cache).length) :
    cleanExpiredF (n + 1) now s =
      ((cleanKeys now s.cache).length,
        saveToStorageF n now (updateOldest
          { s with cache := (cleanKeys now s.cache).foldl delKV s.cache })) := by
  unfold cleanExpiredF
  rw [if_pos h]

theorem cleanF_eq_zero (n now : Nat) (s : CState T)
    (h : ¬ 0 < (cleanKeys now s.cache).length) :
    cleanExpiredF (n + 1) now s =
      ((cleanKeys now s.cache).length,
        { s with cache := (cleanKeys now s.cache).foldl delKV s.cache }) := by
  unfold cleanExpiredF
  rw [if_neg h]

theorem save_clean_basic (fuel : Nat) :
    (∀ (now : Nat) (s : CState T),
      List.Sublist (saveToStorageF fuel now s).cache s.cache ∧
      (saveToStorageF fuel now s).maxSize = s.maxSize ∧
      (saveToStorageF fuel now s).failAt = s.failAt ∧
      (saveToStorageF fuel now s).defaultTTL = s.defaultTTL) ∧
    (∀ (now : Nat) (s : CState T),
      List.Sublist ((cleanExpiredF fuel now s).2).cache s.cache ∧
      ((cleanExpiredF fuel now s).2).maxSize = s.maxSize ∧
      ((cleanExpiredF fuel now s).2).failAt = s.failAt ∧
      ((cleanExpiredF fuel now s).2).defaultTTL = s.defaultTTL) := by
  induction fuel with
  | zero =>
      exact ⟨fun now s => ⟨List.Sublist.refl _, rfl, rfl, rfl⟩,
        fun now s => ⟨List.Sublist.refl _, rfl, rfl, rfl⟩⟩
  | succ n ih =>
      constructor
      · intro now s
        cases hw : s.failAt s.writes with
        | ok => rw [saveF_eq_ok n now s hw]; exact ⟨List.Sublist.refl _, rfl, rfl, rfl⟩
        | other => rw [saveF_eq_other n now s hw]; exact ⟨List.Sublist.refl _, rfl, rfl, rfl⟩
        | quota =>
            rw [saveF_eq_quota n now s hw]
            have h2 := ih.2 now ({ s with writes := s.writes + 1 } : CState T)
            set s2 := (cleanExpiredF n now ({ s with writes := s.writes + 1 } : CState T)).2
              with hs2
            have hp := pruneLoop_sublist (2 * s2.cache.length + 2) s2
            have hpc := pruneLoop_const (2 * s2.cache.length + 2) s2
            set s3 := pruneLoop (2 * s2.cache.length + 2) s2 with hs3
            have hrc := retryOnce_const s3
            refine ⟨?_, ?_, ?_, ?_⟩
            · rw [retryOnce_cache]
              exact hp.trans h2.1
            · rw [hrc.1, hpc.1, h2.2.1]
            · rw [hrc.2.2.1, hpc.2.2.2.2, h2.2.2.1]
            · rw [hrc.2.1, hpc.2.1, h2.2.2.2]
      · intro now s
        by_cases hks : 0 < (cleanKeys now s.cache).length
        · rw [cleanF_eq_pos n now s hks]
          have hsub := foldl_delKV_sublist (cleanKeys now s.cache) s.cache
          have h1 := ih.1 now (updateOldest
            ({ s with cache := (cleanKeys now s.cache).foldl delKV s.cache } : CState T))
          exact ⟨h1.1.trans hsub, h1.2.1, h1.2.2.1, h1.2.2.2⟩
        · rw [cleanF_eq_zero n now s hks]
          exact ⟨foldl_delKV_sublist _ _, rfl, rfl, rfl⟩

theorem save_clean_cinvP (fuel : Nat) :
    (∀ (now : Nat) (s : CState T), CInvP s → CInvP (saveToStorageF fuel now s)) ∧
    (∀ (now : Nat) (s : CState T), CInvP s → CInvP ((cleanExpiredF fuel now s).2)) := by
  induction fuel with
  | zero => exact ⟨fun _ _ h => h, fun _ _ h => h⟩
  | succ n ih =>
      constructor
      · intro now s h
        cases hw : s.failAt s.writes with
        | ok => rw [saveF_eq_ok n now s hw]; exact ⟨h.1, h.2.1, h.2.2⟩
        | other => rw [saveF_eq_other n now s hw]; exact ⟨h.1, h.2.1, h.2.2⟩
        | quota =>
            rw [saveF_eq_quota n now s hw]
            have h1 : CInvP ({ s with writes := s.writes + 1 } : CState T) :=
              ⟨h.1, h.2.1, h.2.2⟩
            have h2 := ih.2 now ({ s with writes := s.writes + 1 } : CState T) h1
            set s2 := (cleanExpiredF n now ({ s with writes := s.writes + 1 } : CState T)).2
            have h3 := pruneLoop_cinvP (2 * s2.cache.length + 2) s2 h2
            set s3 := pruneLoop (2 * s2.cache.length + 2) s2
            have hrc := retryOnce_const s3
            refine ⟨?_, ?_, ?_⟩
            · rw [retryOnce_cache]
              exact h3.1
            · intro ko hko
              rw [retryOnce_cache]
              rw [hrc.2.2.2.1] at hko
              exact h3.2.1 ko hko
            · intro hko
              rw [hrc.2.2.2.1] at hko
              rw [retryOnce_cache, hrc.2.2.2.2]
              exact h3.2.2 hko
      · intro now s h
        by_cases hks : 0 < (cleanKeys now s.cache).length
        · rw [cleanF_eq_pos n now s hks]
          exact ih.1 now _ (cinvP_updateOldest _ (nodup_keys_foldl_delKV _ _ h.1))
        · rw [cleanF_eq_zero n now s hks]
          have hkse : cleanKeys now s.cache = [] := by
            cases hkc : cleanKeys now s.cache with
            | nil => rfl
            | cons a l => rw [hkc] at hks; simp at hks
          rw [hkse]
          exact ⟨h.1, h.2.1, fun hko => ⟨(h.2.2 hko).1, (h.2.2 hko).2⟩⟩

theorem lookupKV_setKV_isSome (m : List (String × Entry T)) (k k0 : String) (e : Entry T)
    (h : (lookupKV m k0).isSome = true) : (lookupKV (setKV m k e) k0).isSome = true := by
  by_cases hk : k = k0
  · subst hk
    rw [lookupKV_setKV_self]
    rfl
  · rw [lookupKV_setKV_ne m k k0 e hk]
    exact h

theorem insEntry_cache (k : String) (e : Entry T) (s : CState T) :
    (insEntry k e s).cache = setKV s.cache k e := rfl

theorem insEntry_other (k : String) (e : Entry T) (s : CState T) :
    (insEntry k e s).maxSize = s.maxSize ∧ (insEntry k e s).oldestKey = s.oldestKey ∧
    (insEntry k e s).oldestTimestamp = s.oldestTimestamp ∧
    (insEntry k e s).writes = s.writes ∧ (insEntry k e s).failAt = s.failAt ∧
    (insEntry k e s).blob = s.blob ∧ (insEntry k e s).defaultTTL = s.defaultTTL :=
  ⟨rfl, rfl, rfl, rfl, rfl, rfl, rfl⟩

theorem bumpOldest_cache (now : Nat) (k : String) (s : CState T) :
    (bumpOldest now k s).cache = s.cache := by
  unfold bumpOldest
  split <;> rfl

theorem bumpOldest_other (now : Nat) (k : String) (s : CState T) :
    (bumpOldest now k s).maxSize = s.maxSize ∧ (bumpOldest now k s).writes = s.writes ∧
    (bumpOldest now k s).failAt = s.failAt ∧ (bumpOldest now k s).blob = s.blob ∧
    (bumpOldest now k s).defaultTTL = s.defaultTTL := by
  unfold bumpOldest
  split <;> exact ⟨rfl, rfl, rfl, rfl, rfl⟩

theorem bumpOldest_ptr (now : Nat) (k : String) (s : CState T) :
    (bumpOldest now k s).oldestKey = some k ∨
      ((bumpOldest now k s).oldestKey = s.oldestKey ∧
        ltInf now s.oldestTimestamp = false) := by
  unfold bumpOldest
  by_cases hb : ltInf now s.oldestTimestamp = true
  · rw [if_pos hb]
    exact Or.inl rfl
  · rw [if_neg hb]
    exact Or.inr ⟨rfl, by revert hb; cases ltInf now s.oldestTimestamp <;> simp⟩

theorem evictStep_eq_not_full (s : CState T) (hc : ¬ s.maxSize ≤ s.cache.length) :
    evictStep s = s := by
  unfold evictStep
  rw [if_neg hc]

theorem evictStep_eq_none (s : CState T) (hc : s.maxSize ≤ s.cache.length)
    (hk : s.oldestKey = none) : evictStep s = s := by
  unfold evictStep
  rw [if_pos hc, hk]

theorem evictStep_eq_some (s : CState T) (ko : String)
    (hc : s.maxSize ≤ s.cache.length) (hk : s.oldestKey = some ko) :
    evictStep s =
      if ko = "" then s
      else updateOldest { s with cache := delKV s.cache ko } := by
  conv_lhs => unfold evictStep
  rw [if_pos hc, hk]

/-- The capacity check only ever removes entries. -/
theorem evictStep_cache_sublist (s : CState T) :
    List.Sublist (evictStep s).cache s.cache := by
  by_cases hc : s.maxSize ≤ s.cache.length
  · cases hko : s.oldestKey with
    | none => rw [evictStep_eq_none s hc hko]
    | some ko =>
        rw [evictStep_eq_some s ko hc hko]
        by_cases hke : ko = ""
        · rw [if_pos hke]
        · rw [if_neg hke, updateOldest_cache]
          exact delKV_sublist _ _
  · rw [evictStep_eq_not_full s hc]

theorem cinv_evictStep (s : CState T) (h : CInv s)
    (hnk : ∀ p ∈ s.cache, p.1 ≠ "") :
    CInvP (evictStep s) ∧ (evictStep s).cache.length + 1 ≤ s.maxSize ∧
    (evictStep s).maxSize = s.maxSize ∧ (evictStep s).writes = s.writes ∧
    (evictStep s).failAt = s.failAt ∧ (evictStep s).blob = s.blob := by
  obtain ⟨hP, hmax, hlen⟩ := h
  by_cases hc : s.maxSize ≤ s.cache.length
  · cases hko : s.oldestKey with
    | none =>
        exfalso
        have he := (hP.2.2 hko).1
        rw [he] at hc
        simp at hc
        omega
    | some ko =>
        have hpres := hP.2.1 ko hko
        have hke : ¬ ko = "" := by
          rcases hlk : lookupKV s.cache ko with _ | v
          · rw [hlk] at hpres
            simp at hpres
          · exact hnk (ko, v) (lookupKV_some_mem _ _ _ hlk)
        rw [evictStep_eq_some s ko hc hko, if_neg hke]
        have hne : s.cache.length ≠ 0 := by
          intro h0
          rw [List.length_eq_zero] at h0
          rw [h0] at hpres
          simp [lookupKV] at hpres
        have hlend : (delKV s.cache ko).length = s.cache.length - 1 := by
          rw [length_delKV]
          rcases hlk : lookupKV s.cache ko with _ | v
          · rw [hlk] at hpres
            simp at hpres
          · simp
        refine ⟨cinvP_updateOldest _ (nodup_keys_delKV _ _ hP.1), ?_, rfl, rfl, rfl, rfl⟩
        rw [updateOldest_cache]
        simp only at hlend ⊢
        omega
  · rw [evictStep_eq_not_full s hc]
    exact ⟨hP, by omega, rfl, rfl, rfl, rfl⟩

theorem cinvP_bump_ins (now : Nat) (k : String) (e : Entry T) (s : CState T)
    (hP : CInvP s) : CInvP (bumpOldest now k (insEntry k e s)) := by
  have hc : (bumpOldest now k (insEntry k e s)).cache = setKV s.cache k e := by
    rw [bumpOldest_cache, insEntry_cache]
  have hnd : ((bumpOldest now k (insEntry k e s)).cache.map Prod.fst).Nodup := by
    rw [hc]
    exact nodup_keys_setKV _ _ _ hP.1
  rcases bumpOldest_ptr now k (insEntry k e s) with hk | ⟨hk, hlt⟩
  · refine ⟨hnd, ?_, ?_⟩
    · intro ko hko
      rw [hk] at hko
      cases hko
      rw [hc, lookupKV_setKV_self]
      rfl
    · intro hko
      rw [hk] at hko
      cases hko
  · refine ⟨hnd, ?_, ?_⟩
    · intro ko hko
      rw [hk, (insEntry_other k e s).2.1] at hko
      rw [hc]
      exact lookupKV_setKV_isSome _ _ _ _ (hP.2.1 ko hko)
    · intro hko
      rw [hk, (insEntry_other k e s).2.1] at hko
      exfalso
      have hot := (hP.2.2 hko).2
      rw [(insEntry_other k e s).2.2.1, hot] at hlt
      simp [ltInf] at hlt

theorem cinv_set (now : Nat) (k : String) (v : T) (ttl : Option Nat) (s : CState T)
    (h : CInv s) (hnk : ∀ p ∈ s.cache, p.1 ≠ "") :
    CInv (set now k v ttl s) ∧ (set now k v ttl s).maxSize = s.maxSize := by
  have key : ∀ (s3 : CState T), CInvP s3 → s3.cache.length ≤ s.maxSize →
      s3.maxSize = s.maxSize →
      CInv (saveToStorageF 4 now s3) ∧ (saveToStorageF 4 now s3).maxSize = s.maxSize := by
    intro s3 hP3 hlen3 hmax3
    have hsv := (save_clean_basic (T := T) 4).1 now s3
    have hsvP := (save_clean_cinvP (T := T) 4).1 now s3 hP3
    refine ⟨⟨hsvP, ?_, ?_⟩, ?_⟩
    · rw [hsv.2.1, hmax3]
      exact h.2.1
    · rw [hsv.2.1, hmax3]
      exact le_trans hsv.1.length_le hlen3
    · rw [hsv.2.1, hmax3]
  have hev := cinv_evictStep s h hnk
  have hP3 := cinvP_bump_ins now k ⟨v, now, ttl.getD s.defaultTTL⟩ (evictStep s) hev.1
  have hc : (bumpOldest now k (insEntry k ⟨v, now, ttl.getD s.defaultTTL⟩
      (evictStep s))).cache = setKV (evictStep s).cache k ⟨v, now, ttl.getD s.defaultTTL⟩ := by
    rw [bumpOldest_cache, insEntry_cache]
  have hlen3 : (bumpOldest now k (insEntry k ⟨v, now, ttl.getD s.defaultTTL⟩
      (evictStep s))).cache.length ≤ s.maxSize := by
    rw [hc, length_setKV]
    by_cases h2 : (lookupKV (evictStep s).cache k).isNone
    · rw [if_pos h2]
      exact hev.2.1
    · rw [if_neg h2]
      have := hev.2.1
      omega
  have hmax3 : (bumpOldest now k (insEntry k ⟨v, now, ttl.getD s.defaultTTL⟩
      (evictStep s))).maxSize = s.maxSize := by
    rw [(bumpOldest_other now k _).1, (insEntry_other k _ _).1]
    exact hev.2.2.1
  exact key _ hP3 hlen3 hmax3

/-- Safety condition on one call: a `get`/`has` call must not lazily expire
the entry tracked by the oldest-key pointer (that purge path of the source
deletes the key without recomputing the pointer). All other calls are
unconditionally safe. -/
def goodOp (s : CState T) : COp T → Bool
  | .get now k =>
      match lookupKV s.cache k with
      | some e => if isExpired now e then decide (s.oldestKey ≠ some k) else true
      | none => true
  | .hasK now k =>
      match lookupKV s.cache k with
      | some e => if isExpired now e then decide (s.oldestKey ≠ some k) else true
      | none => true
  | _ => true

/-- The safety condition along a whole trace, evaluated at the successive
intermediate states. -/
def goodTrace : CState T → List (COp T) → Bool
  | _, [] => true
  | s, op :: rest => goodOp s op && goodTrace (stepC s op) rest

/-- No entry of the map is keyed by the empty string. JS truthiness makes
`if (this.oldestKey)` falsy for a tracked `""` key, so the eviction and
prune paths silently stop there; this predicate isolates the states where
that corner cannot arise. -/
def NoEmptyKey {T : Type} (s : CState T) : Prop := ∀ p ∈ s.cache, p.1 ≠ ""

/-- Bool check that a call does not insert the empty-string key. -/
def goodKey : COp T → Bool
  | .set _ k _ _ => decide (¬ k = "")
  | _ => true

/-- No call of the trace inserts the empty-string key. -/
def goodKeys (ops : List (COp T)) : Bool := ops.all goodKey

theorem noEmpty_stepC (s : CState T) (op : COp T) (h : NoEmptyKey s)
    (hgk : goodKey op = true) : NoEmptyKey (stepC s op) := by
  cases op with
  | set now k v ttl =>
      have hkne : ¬ k = "" := of_decide_eq_true hgk
      show NoEmptyKey (Cache.set now k v ttl s)
      intro p hp
      have hsub := ((save_clean_basic (T := T) 4).1 now
        (bumpOldest now k (insEntry k ⟨v, now, ttl.getD s.defaultTTL⟩ (evictStep s)))).1
      have hp2 := hsub.subset hp
      rw [bumpOldest_cache, insEntry_cache] at hp2
      rcases mem_setKV _ _ _ _ hp2 with hm | hm
      · rw [hm]
        exact hkne
      · exact h p ((evictStep_cache_sublist s).subset hm)
  | get now k =>
      show NoEmptyKey (Cache.get now k s).2
      unfold Cache.get
      rcases hl : lookupKV s.cache k with _ | e
      · exact h
      · simp only
        by_cases hex : isExpired now e = true
        · rw [if_pos hex]
          intro p hp
          have hsub := ((save_clean_basic (T := T) 4).1 now
            ({ s with cache := delKV s.cache k })).1
          exact h p ((delKV_sublist s.cache k).subset (hsub.subset hp))
        · rw [if_neg hex]
          exact h
  | hasK now k =>
      show NoEmptyKey (Cache.hasK now k s).2
      unfold Cache.hasK
      rcases hl : lookupKV s.cache k with _ | e
      · exact h
      · simp only
        by_cases hex : isExpired now e = true
        · rw [if_pos hex]
          intro p hp
          have hsub := ((save_clean_basic (T := T) 4).1 now
            ({ s with cache := delKV s.cache k })).1
          exact h p ((delKV_sublist s.cache k).subset (hsub.subset hp))
        · rw [if_neg hex]
          exact h
  | del now k =>
      show NoEmptyKey (Cache.del now k s).2
      unfold Cache.del
      rcases hl : lookupKV s.cache k with _ | e
      · exact h
      · simp only
        by_cases hko : s.oldestKey = some k
        · rw [if_pos hko]
          intro p hp
          have hsub := ((save_clean_basic (T := T) 4).1 now
            (updateOldest { s with cache := delKV s.cache k })).1
          have hp2 := hsub.subset hp
          rw [updateOldest_cache] at hp2
          exact h p ((delKV_sublist s.cache k).subset hp2)
        · rw [if_neg hko]
          intro p hp
          have hsub := ((save_clean_basic (T := T) 4).1 now
            ({ s with cache := delKV s.cache k })).1
          exact h p ((delKV_sublist s.cache k).subset (hsub.subset hp))
  | clean now =>
      show NoEmptyKey (cleanExpiredF 4 now s).2
      intro p hp
      exact h p (((save_clean_basic (T := T) 4).2 now s).1.subset hp)
  | clear now =>
      show NoEmptyKey (clear now s)
      intro p hp
      have hsub := ((save_clean_basic (T := T) 4).1 now
        ({ s with cache := [], oldestKey := none, oldestTimestamp := none })).1
      exact absurd (hsub.subset hp) (List.not_mem_nil p)

theorem noEmpty_runC (s : CState T) (ops : List (COp T)) (h : NoEmptyKey s)
    (hks : goodKeys ops = true) : NoEmptyKey (runC s ops) := by
  induction ops generalizing s with
  | nil => exact h
  | cons op rest ih =>
      simp only [goodKeys, List.all_cons, Bool.and_eq_true] at hks
      exact ih (stepC s op) (noEmpty_stepC s op h hks.1) hks.2

theorem cinv_expiryPurge (now : Nat) (k : String) (s : CState T) (h : CInv s)
    (e : Entry T) (hl : lookupKV s.cache k = some e)
    (hg : s.oldestKey ≠ some k) :
    CInv (saveToStorageF 4 now { s with cache := delKV s.cache k }) ∧
    (saveToStorageF 4 now { s with cache := delKV s.cache k }).maxSize = s.maxSize := by
  obtain ⟨hP, hmax, hlen⟩ := h
  have hP1 : CInvP ({ s with cache := delKV s.cache k } : CState T) := by
    refine ⟨nodup_keys_delKV _ _ hP.1, ?_, ?_⟩
    · intro ko hko
      have hko' : s.oldestKey = some ko := hko
      have hne : k ≠ ko := by
        intro hkk
        rw [hkk] at hg
        exact hg hko'
      show (lookupKV (delKV s.cache k) ko).isSome = true
      rw [lookupKV_delKV_ne _ _ _ hne]
      exact hP.2.1 ko hko'
    · intro hko
      have hko' : s.oldestKey = none := hko
      have he := (hP.2.2 hko').1
      rw [he] at hl
      exact absurd hl (by simp [lookupKV])
  have hsv := (save_clean_basic (T := T) 4).1 now ({ s with cache := delKV s.cache k })
  have hsvP := (save_clean_cinvP (T := T) 4).1 now _ hP1
  refine ⟨⟨hsvP, ?_, ?_⟩, hsv.2.1⟩
  · rw [hsv.2.1]
    exact hmax
  · rw [hsv.2.1]
    show (saveToStorageF 4 now _).cache.length ≤ s.maxSize
    refine le_trans hsv.1.length_le (le_trans ?_ hlen)
    exact ((delKV_sublist s.cache k).length_le : (delKV s.cache k).length ≤ s.cache.length)

theorem cinv_del (now : Nat) (k : String) (s : CState T) (h : CInv s) :
    CInv (del now k s).2 ∧ (del now k s).2.maxSize = s.maxSize := by
  obtain ⟨hP, hmax, hlen⟩ := h
  unfold del
  rcases hl : lookupKV s.cache k with _ | e
  · exact ⟨⟨hP, hmax, hlen⟩, rfl⟩
  · simp only
    by_cases hko : s.oldestKey = some k
    · rw [if_pos hko]
      have hP1 : CInvP (updateOldest ({ s with cache := delKV s.cache k } : CState T)) :=
        cinvP_updateOldest _ (nodup_keys_delKV _ _ hP.1)
      have hsv := (save_clean_basic (T := T) 4).1 now
        (updateOldest ({ s with cache := delKV s.cache k } : CState T))
      have hsvP := (save_clean_cinvP (T := T) 4).1 now _ hP1
      refine ⟨⟨hsvP, ?_, ?_⟩, ?_⟩
      · rw [hsv.2.1]
        exact hmax
      · rw [hsv.2.1]
        refine le_trans hsv.1.length_le ?_
        rw [updateOldest_cache]
        exact le_trans (delKV_sublist s.cache k).length_le hlen
      · rw [hsv.2.1]
        rfl
    · rw [if_neg hko]
      have hP1 : CInvP ({ s with cache := delKV s.cache k } : CState T) := by
        refine ⟨nodup_keys_delKV _ _ hP.1, ?_, ?_⟩
        · intro ko hko2
          have hko2' : s.oldestKey = some ko := hko2
          have hne : k ≠ ko := by
            intro hkk
            rw [hkk] at hko
            exact hko hko2'
          show (lookupKV (delKV s.cache k) ko).isSome = true
          rw [lookupKV_delKV_ne _ _ _ hne]
          exact hP.2.1 ko hko2'
        · intro hko2
          have hko2' : s.oldestKey = none := hko2
          have he := (hP.2.2 hko2').1
          rw [he] at hl
          exact absurd hl (by simp [lookupKV])
      have hsv := (save_clean_basic (T := T) 4).1 now ({ s with cache := delKV s.cache k })
      have hsvP := (save_clean_cinvP (T := T) 4).1 now _ hP1
      refine ⟨⟨hsvP, ?_, ?_⟩, ?_⟩
      · rw [hsv.2.1]
        exact hmax
      · rw [hsv.2.1]
        refine le_trans hsv.1.length_le ?_
        exact le_trans (delKV_sublist s.cache k).length_le hlen
      · rw [hsv.2.1]

theorem cinv_clear (now : Nat) (s : CState T) (h : CInv s) :
    CInv (clear now s) ∧ (clear now s).maxSize = s.maxSize := by
  show CInv (saveToStorageF 4 now
      ({ s with cache := [], oldestKey := none, oldestTimestamp := none } : CState T)) ∧
    (saveToStorageF 4 now
      ({ s with cache := [], oldestKey := none, oldestTimestamp := none } : CState T)).maxSize =
      s.maxSize
  have hP1 : CInvP ({ s with cache := [], oldestKey := none, oldestTimestamp := none } : CState T) := by
    refine ⟨by simp, ?_, fun _ => ⟨rfl, rfl⟩⟩
    intro ko hko
    cases hko
  have hsv := (save_clean_basic (T := T) 4).1 now
    ({ s with cache := [], oldestKey := none, oldestTimestamp := none })
  have hsvP := (save_clean_cinvP (T := T) 4).1 now _ hP1
  refine ⟨⟨hsvP, ?_, ?_⟩, ?_⟩
  · rw [hsv.2.1]
    exact h.2.1
  · rw [hsv.2.1]
    refine le_trans hsv.1.length_le ?_
    show 0 ≤ s.maxSize
    omega
  · rw [hsv.2.1]

theorem cinv_cleanExpired (now : Nat) (s : CState T) (h : CInv s) :
    CInv (cleanExpired now s).2 ∧ (cleanExpired now s).2.maxSize = s.maxSize := by
  show CInv (cleanExpiredF 4 now s).2 ∧ (cleanExpiredF 4 now s).2.maxSize = s.maxSize
  have hsv := (save_clean_basic (T := T) 4).2 now s
  have hsvP := (save_clean_cinvP (T := T) 4).2 now s h.1
  exact ⟨⟨hsvP, by rw [hsv.2.1]; exact h.2.1,
    by rw [hsv.2.1]; exact le_trans hsv.1.length_le h.2.2⟩, hsv.2.1⟩

theorem cinv_stepC (s : CState T) (op : COp T) (h : CInv s)
    (hne : NoEmptyKey s) (hg : goodOp s op = true) (hgk : goodKey op = true) :
    CInv (stepC s op) ∧ (stepC s op).maxSize = s.maxSize := by
  cases op with
  | set now k v ttl => exact cinv_set now k v ttl s h hne
  | get now k =>
      show CInv (Cache.get now k s).2 ∧ (Cache.get now k s).2.maxSize = s.maxSize
      unfold Cache.get
      rcases hl : lookupKV s.cache k with _ | e
      · exact ⟨h, rfl⟩
      · simp only
        by_cases hex : isExpired now e = true
        · rw [if_pos hex]
          have hgk : s.oldestKey ≠ some k := by
            simp only [goodOp, hl] at hg
            rw [if_pos hex] at hg
            exact of_decide_eq_true hg
          exact cinv_expiryPurge now k s h e hl hgk
        · rw [if_neg hex]
          exact ⟨h, rfl⟩
  | hasK now k =>
      show CInv (Cache.hasK now k s).2 ∧ (Cache.hasK now k s).2.maxSize = s.maxSize
      unfold Cache.hasK
      rcases hl : lookupKV s.cache k with _ | e
      · exact ⟨h, rfl⟩
      · simp only
        by_cases hex : isExpired now e = true
        · rw [if_pos hex]
          have hgk : s.oldestKey ≠ some k := by
            simp only [goodOp, hl] at hg
            rw [if_pos hex] at hg
            exact of_decide_eq_true hg
          exact cinv_expiryPurge now k s h e hl hgk
        · rw [if_neg hex]
          exact ⟨h, rfl⟩
  | del now k => exact cinv_del now k s h
  | clean now => exact cinv_cleanExpired now s h
  | clear now => exact cinv_clear now s h

theorem cinv_runC (s : CState T) (ops : List (COp T)) (h : CInv s)
    (hne : NoEmptyKey s) (hg : goodTrace s ops = true)
    (hks : goodKeys ops = true) :
    CInv (runC s ops) ∧ (runC s ops).maxSize = s.maxSize := by
  induction ops generalizing s with
  | nil => exact ⟨h, rfl⟩
  | cons op rest ih =>
      unfold goodTrace at hg
      rw [Bool.and_eq_true] at hg
      simp only [goodKeys, List.all_cons, Bool.and_eq_true] at hks
      have hstep := cinv_stepC s op h hne hg.1 hks.1
      have hrec := ih (stepC s op) hstep.1 (noEmpty_stepC s op hne hks.1) hg.2 hks.2
      exact ⟨hrec.1, hrec.2.trans hstep.2⟩

theorem evictStep_const (s : CState T) :
    (evictStep s).writes = s.writes ∧ (evictStep s).failAt = s.failAt ∧
    (evictStep s).maxSize = s.maxSize ∧ (evictStep s).defaultTTL = s.defaultTTL ∧
    (evictStep s).blob = s.blob := by
  by_cases hc : s.maxSize ≤ s.cache.length
  · cases hko : s.oldestKey with
    | none =>
        rw [evictStep_eq_none s hc hko]
        exact ⟨rfl, rfl, rfl, rfl, rfl⟩
    | some ko =>
        rw [evictStep_eq_some s ko hc hko]
        by_cases hke : ko = ""
        · rw [if_pos hke]
          exact ⟨rfl, rfl, rfl, rfl, rfl⟩
        · rw [if_neg hke]
          exact ⟨rfl, rfl, rfl, rfl, rfl⟩
  · rw [evictStep_eq_not_full s hc]
    exact ⟨rfl, rfl, rfl, rfl, rfl⟩

theorem nodup_evictStep (s : CState T) (h : (s.cache.map Prod.fst).Nodup) :
    ((evictStep s).cache.map Prod.fst).Nodup := by
  by_cases hc : s.maxSize ≤ s.cache.length
  · cases hko : s.oldestKey with
    | none =>
        rw [evictStep_eq_none s hc hko]
        exact h
    | some ko =>
        rw [evictStep_eq_some s ko hc hko]
        by_cases hke : ko = ""
        · rw [if_pos hke]
          exact h
        · rw [if_neg hke, updateOldest_cache]
          exact nodup_keys_delKV _ _ h
  · rw [evictStep_eq_not_full s hc]
    exact h

/-- With a successful first write, `set` leaves exactly the inserted map in
memory (and snapshots it to the blob). -/
theorem set_cache_ok (now : Nat) (k : String) (v : T) (ttl : Option Nat) (s : CState T)
    (hw : s.failAt s.writes = .ok) :
    (set now k v ttl s).cache =
      setKV (evictStep s).cache k ⟨v, now, ttl.getD s.defaultTTL⟩ := by
  set s3 := bumpOldest now k (insEntry k ⟨v, now, ttl.getD s.defaultTTL⟩ (evictStep s))
    with hs3
  have hwr : s3.writes = s.writes := by
    rw [hs3, (bumpOldest_other now k _).2.1, (insEntry_other k _ _).2.2.2.1,
      (evictStep_const s).1]
  have hfa : s3.failAt = s.failAt := by
    rw [hs3, (bumpOldest_other now k _).2.2.1, (insEntry_other k _ _).2.2.2.2.1,
      (evictStep_const s).2.1]
  have hw3 : s3.failAt s3.writes = .ok := by
    rw [hwr, hfa]
    exact hw
  show (saveToStorageF 4 now s3).cache = _
  rw [saveF_eq_ok 3 now s3 hw3]
  rw [hs3, bumpOldest_cache, insEntry_cache]

theorem nodup_stepC (s : CState T) (op : COp T) (h : (s.cache.map Prod.fst).Nodup) :
    ((stepC s op).cache.map Prod.fst).Nodup := by
  cases op with
  | set now k v ttl =>
      show (((set now k v ttl s).cache.map Prod.fst)).Nodup
      have h3 : ((bumpOldest now k (insEntry k ⟨v, now, ttl.getD s.defaultTTL⟩
          (evictStep s))).cache.map Prod.fst).Nodup := by
        rw [bumpOldest_cache, insEntry_cache]
        exact nodup_keys_setKV _ _ _ (nodup_evictStep s h)
      exact (((save_clean_basic (T := T) 4).1 now _).1.map Prod.fst).nodup h3
  | get now k =>
      show (((Cache.get now k s).2.cache.map Prod.fst)).Nodup
      unfold Cache.get
      rcases hl : lookupKV s.cache k with _ | e
      · exact h
      · simp only
        by_cases hex : isExpired now e = true
        · rw [if_pos hex]
          exact (((save_clean_basic (T := T) 4).1 now _).1.map Prod.fst).nodup
            (nodup_keys_delKV _ _ h)
        · rw [if_neg hex]
          exact h
  | hasK now k =>
      show (((Cache.hasK now k s).2.cache.map Prod.fst)).Nodup
      unfold Cache.hasK
      rcases hl : lookupKV s.cache k with _ | e
      · exact h
      · simp only
        by_cases hex : isExpired now e = true
        · rw [if_pos hex]
          exact (((save_clean_basic (T := T) 4).1 now _).1.map Prod.fst).nodup
            (nodup_keys_delKV _ _ h)
        · rw [if_neg hex]
          exact h
  | del now k =>
      show (((Cache.del now k s).2.cache.map Prod.fst)).Nodup
      unfold Cache.del
      rcases hl : lookupKV s.cache k with _ | e
      · exact h
      · simp only
        by_cases hko : s.oldestKey = some k
        · rw [if_pos hko]
          refine (((save_clean_basic (T := T) 4).1 now _).1.map Prod.fst).nodup ?_
          rw [updateOldest_cache]
          exact nodup_keys_delKV _ _ h
        · rw [if_neg hko]
          exact (((save_clean_basic (T := T) 4).1 now _).1.map Prod.fst).nodup
            (nodup_keys_delKV _ _ h)
  | clean now =>
      show (((cleanExpiredF 4 now s).2.cache.map Prod.fst)).Nodup
      exact (((save_clean_basic (T := T) 4).2 now s).1.map Prod.fst).nodup h
  | clear now =>
      show (((clear now s).cache.map Prod.fst)).Nodup
      exact (((save_clean_basic (T := T) 4).1 now _).1.map Prod.fst).nodup (by simp)

theorem nodup_runC (s : CState T) (ops : List (COp T))
    (h : (s.cache.map Prod.fst).Nodup) : ((runC s ops).cache.map Prod.fst).Nodup := by
  induction ops generalizing s with
  | nil => exact h
  | cons op rest ih => exact ih (stepC s op) (nodup_stepC s op h)

/-- Bool check along a trace that no intermediate operation changes the
binding of key `k` away from the entry `e` (the "no intervening operation
that removes `k`" side condition, evaluated semantically at each step). -/
def keepsK {T : Type} [DecidableEq T] (k : String) (e : Entry T) :
    CState T → List (COp T) → Bool
  | _, [] => true
  | s, op :: rest =>
      (!(decide (lookupKV s.cache k = some e)) ||
        decide (lookupKV (stepC s op).cache k = some e)) &&
      keepsK k e (stepC s op) rest

theorem keepsK_run {T : Type} [DecidableEq T] (k : String) (e : Entry T)
    (s : CState T) (ops : List (COp T)) (hb : lookupKV s.cache k = some e)
    (hk : keepsK k e s ops = true) : lookupKV (runC s ops).cache k = some e := by
  induction ops generalizing s with
  | nil => exact hb
  | cons op rest ih =>
      unfold keepsK at hk
      rw [Bool.and_eq_true] at hk
      have hstep : lookupKV (stepC s op).cache k = some e := by
        rcases Bool.or_eq_true_iff.mp hk.1 with h1 | h2
        · rw [Bool.not_eq_true', decide_eq_false_iff_not] at h1
          exact absurd hb h1
        · exact of_decide_eq_true h2
      exact ih (stepC s op) hstep hk.2

theorem get_of_binding (now : Nat) (k : String) (s : CState T) (e : Entry T)
    (hb : lookupKV s.cache k = some e) :
    get now k s =
      if isExpired now e then
        (none, saveToStorageF 4 now { s with cache := delKV s.cache k })
      else (some e.data, s) := by
  unfold get
  rw [hb]

theorem lookupKV_none_saveF (fuel now : Nat) (s : CState T) (k : String)
    (h : lookupKV s.cache k = none) :
    lookupKV (saveToStorageF fuel now s).cache k = none :=
  lookupKV_eq_none_of_sublist k ((save_clean_basic (T := T) fuel).1 now s).1 h

end CacheLemmas

end Cache

open Cache in
/-- A freshly constructed empty cache over an all-successful adapter, with
the given capacity (defaultTTL 1000 ms, arbitrary). -/
def freshCache (maxSize : Nat) : CState Nat :=
  { cache := [], maxSize := maxSize, defaultTTL := 1000, oldestKey := none,
    oldestTimestamp := none, blob := some [], writes := 0, failAt := fun _ => .ok }

open Cache in
/-- The C2 counterexample trace: two inserts, a lazy-expiry `get` of the
first (and tracked-oldest) key, then two more inserts. -/
def c2trace : List (COp Nat) :=
  [ .set 0 "a" 1 (some 10), .set 1 "b" 2 (some 100), .get 20 "a",
    .set 21 "c" 3 (some 100), .set 22 "d" 4 (some 100) ]

/-- Claim C1: after `set(k, v, t)` at time `t0`, over any sequence of
further calls none of which disturbs `k`'s entry, `get(k)` at time `t1`
returns `v` when `t1 - t0 ≤ t`, and once `t1 - t0 > t` it returns absent
and the entry is removed from the map (lazy expiry). The first write (of
the `set`) is assumed to succeed so that the quota-pruning path does not
itself evict the fresh entry. -/
theorem claim_C1 {T : Type} [DecidableEq T] (s0 : Cache.CState T) (k : String) (v : T)
    (ttlv t0 t1 : Nat) (ops : List (Cache.COp T))
    (hnd : (s0.cache.map Prod.fst).Nodup)
    (hw : s0.failAt s0.writes = .ok)
    (hkeep : Cache.keepsK k ⟨v, t0, ttlv⟩ (Cache.set t0 k v (some ttlv) s0) ops = true) :
    (t1 - t0 ≤ ttlv →
      (Cache.get t1 k (Cache.runC (Cache.set t0 k v (some ttlv) s0) ops)).1 = some v) ∧
    (ttlv < t1 - t0 →
      (Cache.get t1 k (Cache.runC (Cache.set t0 k v (some ttlv) s0) ops)).1 = none ∧
      lookupKV (Cache.get t1 k
        (Cache.runC (Cache.set t0 k v (some ttlv) s0) ops)).2.cache k = none) := by
  have hbind0 : lookupKV (Cache.set t0 k v (some ttlv) s0).cache k = some ⟨v, t0, ttlv⟩ := by
    rw [Cache.set_cache_ok t0 k v (some ttlv) s0 hw]
    exact lookupKV_setKV_self _ _ _
  have hbind := Cache.keepsK_run k ⟨v, t0, ttlv⟩ _ ops hbind0 hkeep
  have hnds : (((Cache.set t0 k v (some ttlv) s0).cache.map Prod.fst)).Nodup :=
    Cache.nodup_stepC s0 (.set t0 k v (some ttlv)) hnd
  have hndf := Cache.nodup_runC _ ops hnds
  constructor
  · intro hle
    have hex : Cache.isExpired t1 (⟨v, t0, ttlv⟩ : Cache.Entry T) = false := by
      simp only [Cache.isExpired, gt_iff_lt, decide_eq_false_iff_not, not_lt]
      exact hle
    rw [Cache.get_of_binding t1 k _ _ hbind,
      if_neg (by rw [hex]; exact Bool.false_ne_true)]
  · intro hgt
    have hex : Cache.isExpired t1 (⟨v, t0, ttlv⟩ : Cache.Entry T) = true := by
      simp only [Cache.isExpired, gt_iff_lt, decide_eq_true_eq]
      exact hgt
    rw [Cache.get_of_binding t1 k _ _ hbind, if_pos hex]
    exact ⟨rfl, Cache.lookupKV_none_saveF 4 t1 _ k (lookupKV_delKV_self _ _ hndf)⟩

/-- Witness for C1 at concrete inputs: `set("k", 7, ttl 1000)` at t=0 with
an unrelated interleaved `get`, then `get("k")` at t=500 hits and at
t=1500 misses with the entry gone. -/
theorem claim_C1_witness :
    ((Cache.get 500 "k" (Cache.runC (Cache.set 0 "k" 7 (some 1000) (freshCache 50))
      [Cache.COp.get 100 "other"])).1 = some 7) ∧
    ((Cache.get 1500 "k" (Cache.runC (Cache.set 0 "k" 7 (some 1000) (freshCache 50))
      [Cache.COp.get 100 "other"])).1 = none) :=
  ⟨(claim_C1 (freshCache 50) "k" 7 1000 0 500 [Cache.COp.get 100 "other"]
      (by decide) (by decide) (by decide)).1 (by decide),
   ((claim_C1 (freshCache 50) "k" 7 1000 0 1500 [Cache.COp.get 100 "other"]
      (by decide) (by decide) (by decide)).2 (by decide)).1⟩

/-- Counterexample to claim C2 as stated: starting from a freshly
constructed cache with `maxEntries = 2`, the sequence
`set a; set b; get a (lazily expiring the tracked oldest key); set c; set d`
leaves 3 live entries in the map — more than `maxEntries`. The lazy-expiry
purge in `get` deletes the key without repairing the oldest pointer, so the
later at-capacity eviction deletes a key that is no longer present. -/
theorem claim_C2_counterexample :
    (freshCache 2).maxSize = 2 ∧
    (Cache.runC (freshCache 2) c2trace).cache.length = 3 ∧
    (Cache.getStats (Cache.runC (freshCache 2) c2trace)).1 = 3 := by
  exact ⟨rfl, by decide, by decide⟩

/-- Claim C2 (amended): the `maxEntries` bound holds along any trace of
public calls in which no `get`/`has` call lazily expires the entry tracked
by the oldest-key pointer and no `set` uses the empty-string key (JS
truthiness makes `if (this.oldestKey)` skip the eviction for a tracked
`""`), for any state satisfying the cache invariant (unique keys, sound
pointer, positive capacity) whose map holds no empty-string key; and
scenario B holds: with `maxEntries = 2`, `set a; set b; set c` leaves
exactly 2 entries. -/
theorem claim_C2_amended :
    (∀ (T : Type) (s : Cache.CState T) (ops : List (Cache.COp T)),
      Cache.CInv s → Cache.NoEmptyKey s → Cache.goodTrace s ops = true →
      Cache.goodKeys ops = true →
      (Cache.runC s ops).cache.length ≤ s.maxSize) ∧
    (Cache.runC (freshCache 2)
      [.set 0 "a" 1 none, .set 1 "b" 2 none, .set 2 "c" 3 none]).cache.length = 2 := by
  constructor
  · intro T s ops h hne hg hks
    have hr := Cache.cinv_runC s ops h hne hg hks
    rw [← hr.2]
    exact hr.1.2.2
  · decide

/-- Witness for the amended C2 at a concrete input: the scenario-B trace on
`maxEntries = 2` never exceeds 2 entries. -/
theorem claim_C2_witness :
    (Cache.runC (freshCache 2)
      [.set 0 "a" 1 none, .set 1 "b" 2 none, .set 2 "c" 3 none]).cache.length ≤ 2 :=
  claim_C2_amended.1 Nat (freshCache 2)
    [.set 0 "a" 1 none, .set 1 "b" 2 none, .set 2 "c" 3 none]
    ⟨⟨by simp [freshCache], fun ko hko => by simp [freshCache] at hko,
      fun _ => ⟨rfl, rfl⟩⟩, by decide, by decide⟩
    (fun p hp => absurd hp (List.not_mem_nil p))
    (by decide) (by decide)

open Cache in
/-- A cache at capacity 2 holding the empty-string key (tracked oldest,
as left by `set("")` on an empty cache) and `b`, over an all-successful
adapter. -/
def c10empty : CState Nat :=
  { cache := [("", ⟨1, 0, 1000⟩), ("b", ⟨2, 1, 1000⟩)], maxSize := 2,
    defaultTTL := 1000, oldestKey := some "", oldestTimestamp := some 0,
    blob := some [("", ⟨1, 0, 1000⟩), ("b", ⟨2, 1, 1000⟩)], writes := 2,
    failAt := fun _ => .ok }

/-- Counterexample to claim C10 as stated: with the map at capacity
(`maxEntries = 2`), `k = "b"` present, and the tracked oldest key the
empty string (present and distinct from `k`), `set("b", 9)` deletes
nothing: JS treats `this.oldestKey = ""` as falsy and skips the eviction,
so the map keeps `maxEntries` entries and the `""` entry survives —
contradicting the claimed `maxEntries - 1` count and the removal of the
tracked key. -/
theorem claim_C10_counterexample :
    (c10empty.cache.map Prod.fst).Nodup ∧
    c10empty.cache.length = c10empty.maxSize ∧
    (lookupKV c10empty.cache "b").isSome = true ∧
    c10empty.oldestKey = some "" ∧ ("" : String) ≠ "b" ∧
    (lookupKV c10empty.cache "").isSome = true ∧
    c10empty.failAt c10empty.writes = Cache.WriteOutcome.ok ∧
    (Cache.set 5 "b" 9 none c10empty).cache.length = c10empty.maxSize ∧
    (lookupKV (Cache.set 5 "b" 9 none c10empty).cache "").isSome = true := by
  decide

/-- Claim C10 (amended): at capacity, `set` evicts the tracked oldest key
even when the written key is already present — provided the tracked key is
not the falsy empty string: with the map holding exactly `maxEntries`
entries, `k` present, and the tracked oldest key `ko ∉ { k, "" }` present,
`set(k, v)` removes `ko` and leaves `maxEntries - 1` entries, with `k`
bound to the fresh entry. (The persistence write is assumed to succeed, so
the quota path does not prune further.) -/
theorem claim_C10_amended {T : Type} (s : Cache.CState T) (now : Nat) (k : String) (v : T)
    (ttl : Option Nat) (ko : String)
    (hnd : (s.cache.map Prod.fst).Nodup)
    (hfull : s.cache.length = s.maxSize)
    (hk : (lookupKV s.cache k).isSome = true)
    (hko : s.oldestKey = some ko) (hne : ko ≠ k) (hkne : ko ≠ "")
    (hkop : (lookupKV s.cache ko).isSome = true)
    (hw : s.failAt s.writes = .ok) :
    (Cache.set now k v ttl s).cache.length = s.maxSize - 1 ∧
    lookupKV (Cache.set now k v ttl s).cache ko = none ∧
    lookupKV (Cache.set now k v ttl s).cache k =
      some ⟨v, now, ttl.getD s.defaultTTL⟩ := by
  have hev : Cache.evictStep s =
      Cache.updateOldest { s with cache := delKV s.cache ko } := by
    rw [Cache.evictStep_eq_some s ko (le_of_eq hfull.symm) hko, if_neg hkne]
  have hcache : (Cache.set now k v ttl s).cache =
      setKV (delKV s.cache ko) k ⟨v, now, ttl.getD s.defaultTTL⟩ := by
    rw [Cache.set_cache_ok now k v ttl s hw, hev, Cache.updateOldest_cache]
  have hkd : (lookupKV (delKV s.cache ko) k).isSome = true := by
    rw [lookupKV_delKV_ne _ _ _ hne]
    exact hk
  refine ⟨?_, ?_, ?_⟩
  · rw [hcache, length_setKV]
    have : ¬ (lookupKV (delKV s.cache ko) k).isNone = true := by
      rcases hx : lookupKV (delKV s.cache ko) k with _ | e
      · rw [hx] at hkd
        simp at hkd
      · simp
    rw [if_neg this, length_delKV]
    have hkos : ¬ (lookupKV s.cache ko).isNone = true := by
      rcases hx : lookupKV s.cache ko with _ | e
      · rw [hx] at hkop
        simp at hkop
      · simp
    rw [if_neg hkos, hfull]
  · rw [hcache, lookupKV_setKV_ne _ _ _ _ (Ne.symm hne)]
    exact lookupKV_delKV_self _ _ hnd
  · rw [hcache]
    exact lookupKV_setKV_self _ _ _

/-- Claim C8 (amended): when a persistence write fails with
`QuotaExceeded`, the cache runs `cleanExpired` (a no-op here, isolated by
the no-expired-entries hypothesis), repeatedly deletes the tracked oldest
key — recomputing the pointer after each deletion — until the size is at
most half of `maxEntries` (this conjunct needs the map to hold no
empty-string key: JS truthiness breaks the loop on a tracked `""`),
retries the write exactly once (two `setItem` attempts in total), and on a
failed retry abandons the write: the blob is untouched and the in-memory
map is left in its pruned state (a sub-map of the original). -/
theorem claim_C8_amended {T : Type} (s : Cache.CState T) (now : Nat)
    (h : Cache.CInv s) (hnk : Cache.NoEmptyKey s)
    (hexp : ∀ p ∈ s.cache, Cache.isExpired now p.2 = false)
    (hq : s.failAt s.writes = .quota) :
    2 * (Cache.saveToStorageF 4 now s).cache.length ≤ s.maxSize ∧
    (Cache.saveToStorageF 4 now s).writes = s.writes + 2 ∧
    List.Sublist (Cache.saveToStorageF 4 now s).cache s.cache ∧
    (s.failAt (s.writes + 1) = .ok →
      (Cache.saveToStorageF 4 now s).blob =
        some (Cache.saveToStorageF 4 now s).cache) ∧
    (s.failAt (s.writes + 1) ≠ .ok →
      (Cache.saveToStorageF 4 now s).blob = s.blob) := by
  have hs1c : ({ s with writes := s.writes + 1 } : Cache.CState T).cache = s.cache := rfl
  have hkse : Cache.cleanKeys now ({ s with writes := s.writes + 1 } :
      Cache.CState T).cache = [] := by
    rw [hs1c]
    unfold Cache.cleanKeys
    have : s.cache.filter (fun p => Cache.isExpired now p.2) = [] := by
      rw [List.filter_eq_nil_iff]
      intro p hp
      rw [hexp p hp]
      simp
    rw [this]
    rfl
  have hnotpos : ¬ 0 < (Cache.cleanKeys now ({ s with writes := s.writes + 1 } :
      Cache.CState T).cache).length := by
    rw [hkse]
    simp
  have hclean : (Cache.cleanExpiredF 3 now ({ s with writes := s.writes + 1 } :
      Cache.CState T)).2 = { s with writes := s.writes + 1 } := by
    rw [Cache.cleanF_eq_zero 2 now _ hnotpos, hkse]
    rfl
  have hsave := Cache.saveF_eq_quota 3 now s hq
  rw [hclean] at hsave
  have hP1 : Cache.CInvP ({ s with writes := s.writes + 1 } : Cache.CState T) :=
    ⟨h.1.1, h.1.2.1, h.1.2.2⟩
  set s3 := Cache.pruneLoop
    (2 * ({ s with writes := s.writes + 1 } : Cache.CState T).cache.length + 2)
    ({ s with writes := s.writes + 1 } : Cache.CState T) with hs3
  have hhalf : 2 * s3.cache.length ≤ s.maxSize := by
    rw [hs3]
    exact Cache.pruneLoop_half _ _ hP1 (by rw [hs1c]; omega) hnk
  have hpc := Cache.pruneLoop_const
    (2 * ({ s with writes := s.writes + 1 } : Cache.CState T).cache.length + 2)
    ({ s with writes := s.writes + 1 } : Cache.CState T)
  have hps := Cache.pruneLoop_sublist
    (2 * ({ s with writes := s.writes + 1 } : Cache.CState T).cache.length + 2)
    ({ s with writes := s.writes + 1 } : Cache.CState T)
  have hw3 : s3.writes = s.writes + 1 := hpc.2.2.2.1
  have hf3 : s3.failAt = s.failAt := hpc.2.2.2.2
  have hb3 : s3.blob = s.blob := hpc.2.2.1
  rw [hsave]
  refine ⟨?_, ?_, ?_, ?_, ?_⟩
  · rw [Cache.retryOnce_cache]
    exact hhalf
  · rw [Cache.retryOnce_writes, hw3]
  · rw [Cache.retryOnce_cache]
    exact hps.trans (by rw [hs1c])
  · intro hok
    rw [Cache.retryOnce_cache]
    refine Cache.retryOnce_blob_ok s3 ?_
    rw [hf3, hw3]
    exact hok
  · intro hnok
    rw [Cache.retryOnce_blob_fail s3 (by rw [hf3, hw3]; exact hnok), hb3]

open Cache in
/-- A one-entry cache (capacity 2, entry unexpired at t=1) over an adapter
whose every write fails with `QuotaExceeded`. -/
def c8state : CState Nat :=
  { cache := [("a", ⟨1, 0, 1000⟩)], maxSize := 2, defaultTTL := 1000,
    oldestKey := some "a", oldestTimestamp := some 0, blob := some [],
    writes := 0, failAt := fun _ => .quota }

/-- Witness for the amended C8 at a concrete input: the all-quota adapter
leaves the blob untouched after exactly two write attempts, with the map
pruned to at most half capacity. -/
theorem claim_C8_witness :
    2 * (Cache.saveToStorageF 4 1 c8state).cache.length ≤ 2 ∧
    (Cache.saveToStorageF 4 1 c8state).writes = 2 ∧
    (Cache.saveToStorageF 4 1 c8state).blob = some [] := by
  have h := claim_C8_amended c8state 1
    ⟨⟨by decide,
      fun ko hko => by
        cases Option.some.inj (show some "a" = some ko from hko)
        decide,
      fun hko => by simp [c8state] at hko⟩, by decide, by decide⟩
    (show ∀ p ∈ c8state.cache, p.1 ≠ "" by decide) (by decide) (by decide)
  exact ⟨h.1, h.2.1, h.2.2.2.2 (by decide)⟩

open Cache in
/-- A two-entry cache (capacity 2) whose tracked oldest key is the empty
string, over an adapter whose every write fails with `QuotaExceeded`. -/
def c8empty : CState Nat :=
  { cache := [("", ⟨1, 0, 1000⟩), ("a", ⟨2, 1, 1000⟩)], maxSize := 2,
    defaultTTL := 1000, oldestKey := some "", oldestTimestamp := some 0,
    blob := some [], writes := 0, failAt := fun _ => .quota }

/-- Counterexample to claim C8 as stated: at a `CInv` state with no
expired entries whose tracked oldest key is the empty string, the quota
path prunes nothing — the JS while-loop breaks immediately on the falsy
`""` pointer — so after `saveToStorage` the map still holds 2 of
`maxEntries = 2` entries, not at most half. -/
theorem claim_C8_counterexample :
    Cache.CInv c8empty ∧
    (∀ p ∈ c8empty.cache, Cache.isExpired 1 p.2 = false) ∧
    c8empty.failAt c8empty.writes = Cache.WriteOutcome.quota ∧
    (Cache.saveToStorageF 4 1 c8empty).cache.length = 2 ∧
    c8empty.maxSize = 2 ∧
    ¬ 2 * (Cache.saveToStorageF 4 1 c8empty).cache.length ≤ c8empty.maxSize :=
  ⟨⟨⟨by decide,
      fun ko hko => by
        cases Option.some.inj (show some "" = some ko from hko)
        decide,
      fun hko => by simp [c8empty] at hko⟩, by decide, by decide⟩,
    by decide, by decide, by decide, by decide, by decide⟩

open Cache in
/-- A cache at capacity 2 holding `a` (tracked oldest) and `b`, as produced
by `set a; set b` on a fresh cache. -/
def c10state : CState Nat :=
  { cache := [("a", ⟨1, 0, 1000⟩), ("b", ⟨2, 1, 1000⟩)], maxSize := 2,
    defaultTTL := 1000, oldestKey := some "a", oldestTimestamp := some 0,
    blob := some [("a", ⟨1, 0, 1000⟩), ("b", ⟨2, 1, 1000⟩)], writes := 2,
    failAt := fun _ => .ok }

/-- Witness for the amended C10 at a concrete input: cache with
`maxEntries = 2` holding `a` (oldest) and `b`; `set("b", 9)` evicts `a`
and leaves one entry. -/
theorem claim_C10_witness :
    (Cache.set 5 "b" 9 none c10state).cache.length = 1 ∧
    lookupKV (Cache.set 5 "b" 9 none c10state).cache "a" = none ∧
    lookupKV (Cache.set 5 "b" 9 none c10state).cache "b" =
      some ⟨9, 5, 1000⟩ :=
  claim_C10_amended c10state 5 "b" 9 none "a" (by decide) (by decide) (by decide)
    (by decide) (by decide) (by decide) (by decide) (by decide)

namespace Hist

/-- The storage-limit constants of the history store
(`STORAGE_LIMITS` in the constants module). -/
def MAX_HISTORY_ITEMS : Nat := 100

def MAX_ITEM_SIZE : Nat := 5 * 1024 * 1024

def MAX_TOTAL_SIZE : Nat := 10 * 1024 * 1024

/-- Number of items kept by the pre-emptive prune
(`Math.floor(length * STORAGE_CLEANUP.PRUNING_RATIO)` with ratio 0.8);
the exact integer form of the float computation at the small lengths the
proofs instantiate. -/
def pruneCount (l : Nat) : Nat := l * 8 / 10

/-- Number of items kept by the aggressive prune (ratio 0.7). -/
def aggressiveCount (l : Nat) : Nat := l * 7 / 10

/-- The `SavedComparison` record; the opaque `result` payload is carried
as its serialized JSON text (validated records always have an object
there, e.g. `"\x7b\x7d"`). -/
structure SavedComparison where
  id : String
  timestamp : Nat
  inputText : String
  result : String
  tags : Option (List String)
  notes : Option String
deriving DecidableEq, Repr

/-- One element of a parsed blob array: either a structurally invalid
value (carried as its serialized text, to be dropped by
`validateHistoryArray`) or a valid record. -/
inductive RawEntry where
  | junk (text : String)
  | item (it : SavedComparison)
deriving DecidableEq, Repr

/-- The value stored under the history key: missing, unparsable, or a
parsed JSON array. -/
inductive Blob where
  | absent
  | corrupt (text : String)
  | arr (entries : List RawEntry)
deriving DecidableEq, Repr

/-- The adapter as seen by the history store: availability, its own blob,
the total byte size of all other keys, and the write plan (`failAt i` is
the outcome of the `i`-th `setItem` attempt, counted by `writes`). -/
structure Store where
  avail : Bool
  blob : Blob
  othersSize : Nat
  writes : Nat
  failAt : Nat → Cache.WriteOutcome

/-- JSON text of the optional `tags` array. -/
def serializeTags (ts : List String) : String :=
  "[" ++ String.intercalate "," (ts.map (fun t => "\"" ++ jsonEscape t ++ "\"")) ++ "]"

/-- The `JSON.stringify` text of a record, with the object-literal key
order `id, timestamp, inputText, result, tags, notes` and `undefined`
fields omitted. -/
def serializeItem (it : SavedComparison) : String :=
  "\x7b\"id\":\"" ++ jsonEscape it.id ++ "\",\"timestamp\":" ++ toString it.timestamp ++
  ",\"inputText\":\"" ++ jsonEscape it.inputText ++ "\",\"result\":" ++ it.result ++
  (match it.tags with
   | none => ""
   | some ts => ",\"tags\":" ++ serializeTags ts) ++
  (match it.notes with
   | none => ""
   | some n => ",\"notes\":\"" ++ jsonEscape n ++ "\"") ++ "\x7d"

/-- Model of `estimateItemSize`: `new Blob([JSON.stringify(item)]).size`. -/
def estimateItemSize (it : SavedComparison) : Nat :=
  utf8Len (serializeItem it)

/-- The serialized text of a whole history array. -/
def serializeList (l : List SavedComparison) : String :=
  "[" ++ String.intercalate "," (l.map serializeItem) ++ "]"

def serializeRaw : RawEntry → String
  | .junk t => t
  | .item it => serializeItem it

def serializeRawList (l : List RawEntry) : String :=
  "[" ++ String.intercalate "," (l.map serializeRaw) ++ "]"

/-- Model of `getStorageSize(STORAGE_KEY)` (0 on absence or any error). -/
def getStorageSize (s : Store) : Nat :=
  if s.avail then
    match s.blob with
    | .absent => 0
    | .corrupt t => utf8Len t
    | .arr l => utf8Len (serializeRawList l)
  else 0

/-- Model of `getTotalStorageSize` over all `localStorage` keys. -/
def getTotalStorageSize (s : Store) : Nat :=
  if s.avail then s.othersSize + getStorageSize s else 0

/-- Model of `localStorage.setItem(STORAGE_KEY, JSON.stringify(l))`:
consumes one slot of the write plan; an unavailable adapter throws a
non-quota error. -/
def setItem (s : Store) (l : List SavedComparison) : Cache.WriteOutcome × Store :=
  if s.avail then
    match s.failAt s.writes with
    | .ok => (.ok, { s with blob := .arr (l.map RawEntry.item), writes := s.writes + 1 })
    | o => (o, { s with writes := s.writes + 1 })
  else (.other, { s with writes := s.writes + 1 })

/-- Model of `localStorage.removeItem(STORAGE_KEY)` (no-op when the
adapter is unavailable, matching the swallowed exception). -/
def removeItem (s : Store) : Store :=
  if s.avail then { s with blob := .absent } else s

/-- Model of `validateHistoryArray`: keep only structurally valid records. -/
def validateHistoryArray (l : List RawEntry) : List SavedComparison :=
  l.filterMap (fun r => match r with | .junk _ => none | .item it => some it)

/-- The deduplication key: `inputText.trim().toLowerCase()`. -/
def normKey (t : String) : String :=
  jsLower (jsTrim t)

/-- Stable insertion (descending by timestamp, earlier element first on
ties) for the model of `sort((a, b) => b.timestamp - a.timestamp)`. -/
def insTs (x : SavedComparison) : List SavedComparison → List SavedComparison
  | [] => [x]
  | y :: ys => if y.timestamp ≤ x.timestamp then x :: y :: ys else y :: insTs x ys

/-- Stable sort descending by timestamp (JS `Array.prototype.sort` is
stable). -/
def sortTsDesc (l : List SavedComparison) : List SavedComparison :=
  l.foldr insTs []

/-- One step of the `seen` map construction of `deduplicateHistory`:
keep the most recent record per normalized key. -/
def dedupStep (m : List (String × SavedComparison)) (item : SavedComparison) :
    List (String × SavedComparison) :=
  let key := normKey item.inputText
  match lookupKV m key with
  | none => setKV m key item
  | some existing =>
      if existing.timestamp < item.timestamp then setKV m key item else m

/-- Model of `deduplicateHistory`: single-pass dedup via the `seen` map,
then sort descending by timestamp. -/
def deduplicateHistory (history : List SavedComparison) : List SavedComparison :=
  sortTsDesc (valuesKV (history.foldl dedupStep []))

/-- Model of `getHistory`: absent/corrupt blobs yield `[]` (a corrupt blob
is removed), invalid entries are dropped with a self-healing rewrite, and
the result is deduplicated. -/
def getHistory (s : Store) : List SavedComparison × Store :=
  if s.avail then
    match s.blob with
    | .absent => ([], s)
    | .corrupt _ => ([], removeItem s)
    | .arr raws =>
        let validated := validateHistoryArray raws
        let s1 := if validated.length ≠ raws.length then (setItem s validated).2 else s
        (deduplicateHistory validated, s1)
  else ([], s)

/-- The budget-enforcing loop of `cleanupOldItems` over the sorted list:
skip oversized items, stop at the byte budget (unless nothing was kept
yet) or at the count cap. -/
def cleanupGo : List SavedComparison → List SavedComparison → Nat → List SavedComparison
  | [], cleaned, _ => cleaned
  | item :: rest, cleaned, total =>
      let itemSize := estimateItemSize item
      if MAX_ITEM_SIZE < itemSize then cleanupGo rest cleaned total
      else if MAX_TOTAL_SIZE < total + itemSize ∧ 0 < cleaned.length then cleaned
      else if MAX_HISTORY_ITEMS ≤ cleaned.length then cleaned
      else cleanupGo rest (cleaned ++ [item]) (total + itemSize)

/-- Model of `cleanupOldItems`. -/
def cleanupOldItems (history : List SavedComparison) : List SavedComparison :=
  cleanupGo (sortTsDesc history) [] 0

/-- One step of the combined dedup-and-filter pass of `saveComparison`:
skip items whose normalized input matches the candidate's, keep the most
recent per key otherwise. -/
def dedupExclStep (nk : String) (m : List (String × SavedComparison))
    (item : SavedComparison) : List (String × SavedComparison) :=
  let key := normKey item.inputText
  if key = nk then m
  else
    match lookupKV m key with
    | none => setKV m key item
    | some existing =>
        if existing.timestamp < item.timestamp then setKV m key item else m

/-- The quota-exceeded recovery of `saveComparison`: aggressive prune and
one retry whose failure of any kind yields `null`. -/
def aggressiveRetry (saved : SavedComparison) (history : List SavedComparison)
    (s : Store) : Option SavedComparison × Store :=
  let h2 := cleanupOldItems (history.take (aggressiveCount history.length))
  match setItem s h2 with
  | (.ok, s') => (some saved, s')
  | (_, s') => (none, s')

/-- The candidate record built at the top of `saveComparison`: generated
id, current timestamp, trimmed input, filtered tags, trimmed-or-omitted
notes. -/
def mkCandidate (idStr : String) (now : Nat) (inputText : String)
    (result : String) (tags : Option (List String)) (notes : Option String) :
    SavedComparison :=
  { id := idStr, timestamp := now, inputText := jsTrim inputText, result := result,
    tags := tags.map (fun ts => ts.filter (fun t => ¬ t = "")),
    notes := match notes with
             | none => none
             | some n => if jsTrim n = "" then none else some (jsTrim n) }

/-- Model of `saveComparison`. The generated id and `Date.now()` are the
explicit `idStr`/`now` parameters. -/
def saveComparison (idStr : String) (now : Nat) (inputText : String)
    (result : String) (tags : Option (List String)) (notes : Option String)
    (s : Store) : Option SavedComparison × Store :=
  let saved : SavedComparison := mkCandidate idStr now inputText result tags notes
  if saved.inputText = "" then (none, s)
  else if MAX_ITEM_SIZE < estimateItemSize saved then (none, s)
  else
    let hs := getHistory s
    let history0 := hs.1
    let sG := hs.2
    let normalizedInput := normKey saved.inputText
    let dedupMap := history0.foldl (dedupExclStep normalizedInput) []
    let history2 := saved :: valuesKV dedupMap
    let history3 := cleanupOldItems history2
    let serializedSize := utf8Len (serializeList history3)
    let newTotalSize := getTotalStorageSize sG - getStorageSize sG + serializedSize
    if MAX_TOTAL_SIZE < newTotalSize then
      let history4 := cleanupOldItems (history3.take (pruneCount history3.length))
      match setItem sG history4 with
      | (.ok, s') => (some saved, s')
      | (.quota, s') => aggressiveRetry saved history4 s'
      | (.other, s') => (none, s')
    else
      match setItem sG history3 with
      | (.ok, s') => (some saved, s')
      | (.quota, s') => aggressiveRetry saved history3 s'
      | (.other, s') => (none, s')

/-- Model of `deleteComparison`. -/
def deleteComparison (id : String) (s : Store) : Bool × Store :=
  let hs := getHistory s
  let filtered := hs.1.filter (fun it => ¬ it.id = id)
  if filtered.length = hs.1.length then (false, hs.2)
  else
    match setItem hs.2 filtered with
    | (.ok, s') => (true, s')
    | (_, s') => (false, s')

/-- The record update `\x7b ...existing, ...updates \x7d` restricted to
patches whose present keys carry defined values. -/
def applyPatch (it : SavedComparison) (tags : Option (List String))
    (notes : Option String) : SavedComparison :=
  { it with
    tags := match tags with | none => it.tags | some ts => some ts,
    notes := match notes with | none => it.notes | some n => some n }

/-- Model of `updateComparison` (id map rebuild, in-place patch, rewrite
without any re-pruning). -/
def updateComparison (id : String) (tags : Option (List String))
    (notes : Option String) (s : Store) : Bool × Store :=
  let hs := getHistory s
  let idMap := hs.1.foldl (fun m it => setKV m it.id it) []
  match lookupKV idMap id with
  | none => (false, hs.2)
  | some existing =>
      match setItem hs.2 (valuesKV (setKV idMap id (applyPatch existing tags notes))) with
      | (.ok, s') => (true, s')
      | (_, s') => (false, s')

/-- Model of `clearHistory`. -/
def clearHistory (s : Store) : Store :=
  removeItem s

/-- The per-item match of `searchHistory`: input text first, then any tag,
then notes (an item is included at most once). -/
def matchesQuery (lowerQuery : String) (it : SavedComparison) : Bool :=
  jsIncludes (jsLower it.inputText) lowerQuery ||
  (match it.tags with
   | some ts => ts.any (fun t => jsIncludes (jsLower t) lowerQuery)
   | none => false) ||
  (match it.notes with
   | some n => jsIncludes (jsLower n) lowerQuery
   | none => false)

/-- Model of `searchHistory`: the empty (after trim) query returns the
unfiltered history. -/
def searchHistory (query : String) (s : Store) : List SavedComparison × Store :=
  let hs := getHistory s
  if jsTrim query = "" then hs
  else (hs.1.filter (matchesQuery (jsLower query)), hs.2)

/-- The public operations of the history store, with the generated id and
`Date.now()` carried as explicit data. -/
inductive HOp where
  | save (idStr : String) (now : Nat) (inputText result : String)
      (tags : Option (List String)) (notes : Option String)
  | del (id : String)
  | update (id : String) (tags : Option (List String)) (notes : Option String)
  | clear
  | load
  | search (q : String)

/-- Effect of one public operation on the adapter state. -/
def stepH (s : Store) : HOp → Store
  | .save i n t r tg no => (saveComparison i n t r tg no s).2
  | .del i => (deleteComparison i s).2
  | .update i tg no => (updateComparison i tg no s).2
  | .clear => clearHistory s
  | .load => (getHistory s).2
  | .search q => (searchHistory q s).2

/-- A sequence of public operations, applied left to right. -/
def runH (s : Store) (ops : List HOp) : Store :=
  ops.foldl stepH s

def isUpd : HOp → Bool
  | .update _ _ _ => true
  | _ => false

/-- Whether a trace contains an `updateComparison` call. -/
def hasUpd (ops : List HOp) : Bool :=
  ops.any isUpd

/-- Count half of the storage budget: every parsed array blob validates
to at most `MAX_HISTORY_ITEMS` records. -/
def HCount (s : Store) : Prop :=
  ∀ raws, s.blob = Blob.arr raws →
    (validateHistoryArray raws).length ≤ MAX_HISTORY_ITEMS

/-- Byte half of the storage budget: every parsed array blob validates to
records whose estimated sizes sum to at most `MAX_TOTAL_SIZE`. -/
def HSize (s : Store) : Prop :=
  ∀ raws, s.blob = Blob.arr raws →
    ((validateHistoryArray raws).map estimateItemSize).sum ≤ MAX_TOTAL_SIZE

end Hist

/-- Claim C6: `save` rejects — returning absent with the store untouched
(no adapter write, blob and `load()` unchanged) — whenever the input text
trims to the empty string or the candidate's serialized size exceeds
`MAX_ITEM_SIZE`. -/
theorem claim_C6 (idStr : String) (now : Nat) (inputText result : String)
    (tags : Option (List String)) (notes : Option String) (s : Hist.Store)
    (h : jsTrim inputText = "" ∨
      Hist.MAX_ITEM_SIZE < Hist.estimateItemSize
        (Hist.mkCandidate idStr now inputText result tags notes)) :
    Hist.saveComparison idStr now inputText result tags notes s = (none, s) := by
  have hinp : (Hist.mkCandidate idStr now inputText result tags notes).inputText =
      jsTrim inputText := rfl
  simp only [Hist.saveComparison]
  by_cases he : jsTrim inputText = ""
  · rw [hinp, if_pos he]
  · rcases h with h | h
    · exact absurd h he
    · rw [hinp, if_neg he, if_pos h]

/-- A small history store holding two items, over an all-ok adapter. -/
def c9store : Hist.Store :=
  { avail := true,
    blob := .arr [Hist.RawEntry.item ⟨"a", 5, "Alpha", "\x7b\x7d", some ["t"], none⟩,
      Hist.RawEntry.item ⟨"b", 7, "Beta", "\x7b\x7d", none, some "note"⟩],
    othersSize := 0, writes := 0, failAt := fun _ => .ok }

/-- Witness for C6 at a concrete input: whitespace-only input text is
rejected and the store is unchanged. -/
theorem claim_C6_witness :
    Hist.saveComparison "i" 1 "   " "\x7b\x7d" none none c9store = (none, c9store) :=
  claim_C6 "i" 1 "   " "\x7b\x7d" none none c9store (Or.inl (by decide))

/-- Claim C9: `search` with a query that trims to the empty string returns
exactly the result of `load()`, list and post-state alike. -/
theorem claim_C9 (q : String) (s : Hist.Store) (h : jsTrim q = "") :
    Hist.searchHistory q s = Hist.getHistory s := by
  simp only [Hist.searchHistory]
  rw [if_pos h]

/-- Witness for C9 at a concrete input: a whitespace query on a two-item
store returns the `load()` list. -/
theorem claim_C9_witness :
    (Hist.searchHistory "  " c9store).1 = (Hist.getHistory c9store).1 :=
  congrArg Prod.fst (claim_C9 "  " c9store (by decide))

theorem self_mem_setKV {α : Type} (m : List (String × α)) (k : String) (v : α) :
    (k, v) ∈ setKV m k v := by
  induction m with
  | nil => exact List.mem_singleton.mpr rfl
  | cons q rest ih =>
      obtain ⟨k', v'⟩ := q
      by_cases hk : k' = k
      · rw [setKV, if_pos hk]
        exact List.mem_cons_self _ _
      · rw [setKV, if_neg hk]
        exact List.mem_cons_of_mem _ ih

theorem mem_setKV_of_ne {α : Type} (m : List (String × α)) (k : String) (v : α)
    (p : String × α) (hp : p ∈ m) (hne : p.1 ≠ k) : p ∈ setKV m k v := by
  induction m with
  | nil => cases hp
  | cons q rest ih =>
      obtain ⟨k', v'⟩ := q
      rcases List.mem_cons.mp hp with h | h
      · by_cases hk : k' = k
        · exfalso
          apply hne
          rw [h]
          exact hk
        · rw [setKV, if_neg hk]
          exact h ▸ List.mem_cons_self _ _
      · by_cases hk : k' = k
        · rw [setKV, if_pos hk]
          exact List.mem_cons_of_mem _ h
        · rw [setKV, if_neg hk]
          exact List.mem_cons_of_mem _ (ih h)

theorem keys_nodup_unique {α : Type} (m : List (String × α))
    (hnd : (m.map Prod.fst).Nodup) (p q : String × α) (hp : p ∈ m) (hq : q ∈ m)
    (h : p.1 = q.1) : p = q := by
  induction m with
  | nil => cases hp
  | cons a rest ih =>
      simp only [List.map_cons, List.nodup_cons] at hnd
      rcases List.mem_cons.mp hp with hp1 | hp1 <;> rcases List.mem_cons.mp hq with hq1 | hq1
      · rw [hp1, hq1]
      · exfalso
        apply hnd.1
        rw [← hp1, h]
        exact List.mem_map_of_mem Prod.fst hq1
      · exfalso
        apply hnd.1
        rw [← hq1, ← h]
        exact List.mem_map_of_mem Prod.fst hp1
      · exact ih hnd.2 hp1 hq1

/-- Writing one binding grows the map by at most one entry. -/
theorem length_setKV_le {α : Type} (m : List (String × α)) (k : String) (v : α) :
    (setKV m k v).length ≤ m.length + 1 := by
  rw [length_setKV]
  by_cases h : (lookupKV m k).isNone
  · rw [if_pos h]
  · rw [if_neg h]
    exact Nat.le_succ _

/-- Writing one binding adds at most the new value's weight to the total
weight of the stored values. -/
theorem sum_values_setKV_le {α : Type} (f : α → Nat) (m : List (String × α))
    (k : String) (v : α) :
    ((valuesKV (setKV m k v)).map f).sum ≤ ((valuesKV m).map f).sum + f v := by
  induction m with
  | nil => simp [setKV, valuesKV]
  | cons p rest ih =>
      rcases p with ⟨k', v'⟩
      by_cases hk : k' = k
      · simp only [setKV, if_pos hk, valuesKV, List.map_cons, List.sum_cons]
        omega
      · simp only [setKV, if_neg hk, valuesKV, List.map_cons, List.sum_cons]
        simp only [valuesKV] at ih
        omega

/-- Sums of nonnegative weights only shrink along sublists. -/
theorem sum_le_of_sublist {l1 l2 : List Nat} (h : l1.Sublist l2) :
    l1.sum ≤ l2.sum := by
  induction h with
  | slnil => exact Nat.le_refl 0
  | cons a _ ih => simp only [List.sum_cons]; omega
  | cons₂ a _ ih => simp only [List.sum_cons]; omega

namespace Hist

theorem insTs_perm (x : SavedComparison) (l : List SavedComparison) :
    List.Perm (insTs x l) (x :: l) := by
  induction l with
  | nil => exact List.Perm.refl _
  | cons y ys ih =>
      rw [insTs]
      by_cases h : y.timestamp ≤ x.timestamp
      · rw [if_pos h]
      · rw [if_neg h]
        exact (List.Perm.cons y ih).trans (List.Perm.swap x y ys)

theorem sortTsDesc_perm (l : List SavedComparison) :
    List.Perm (sortTsDesc l) l := by
  induction l with
  | nil => exact List.Perm.refl _
  | cons x xs ih =>
      show List.Perm (insTs x (sortTsDesc xs)) _
      exact (insTs_perm x (sortTsDesc xs)).trans (List.Perm.cons x ih)

theorem mem_sortTsDesc (l : List SavedComparison) (a : SavedComparison) :
    a ∈ sortTsDesc l ↔ a ∈ l :=
  (sortTsDesc_perm l).mem_iff

theorem insTs_eq_cons (x : SavedComparison) (l : List SavedComparison)
    (h : ∀ y ∈ l, y.timestamp ≤ x.timestamp) : insTs x l = x :: l := by
  cases l with
  | nil => rfl
  | cons y ys =>
      rw [insTs, if_pos (h y (List.mem_cons_self _ _))]

/-- Facts about one step of the dedup `seen` map: key-soundness and key
uniqueness are preserved, the processed item's key is present with at
least its timestamp, existing entries only grow, and every entry comes
from the map or the item. -/
theorem dedupStep_facts (m : List (String × SavedComparison)) (x : SavedComparison)
    (hks : ∀ p ∈ m, normKey p.2.inputText = p.1)
    (hnd : (m.map Prod.fst).Nodup) :
    (∀ p ∈ dedupStep m x, normKey p.2.inputText = p.1) ∧
    (((dedupStep m x).map Prod.fst).Nodup) ∧
    (∃ p ∈ dedupStep m x, p.1 = normKey x.inputText ∧
      x.timestamp ≤ p.2.timestamp) ∧
    (∀ p ∈ m, ∃ q ∈ dedupStep m x, q.1 = p.1 ∧ p.2.timestamp ≤ q.2.timestamp) ∧
    (∀ p ∈ dedupStep m x, p ∈ m ∨ p.2 = x) := by
  simp only [dedupStep]
  rcases hl : lookupKV m (normKey x.inputText) with _ | existing
  · refine ⟨?_, nodup_keys_setKV _ _ _ hnd, ?_, ?_, ?_⟩
    · intro p hp
      rcases mem_setKV _ _ _ _ hp with h | h
      · rw [h]
      · exact hks p h
    · exact ⟨(normKey x.inputText, x), self_mem_setKV _ _ _, rfl, le_refl _⟩
    · intro p hp
      have hne : p.1 ≠ normKey x.inputText := by
        intro he
        have := lookupKV_eq_none_iff m (normKey x.inputText) |>.mp hl
        exact this (he ▸ List.mem_map_of_mem Prod.fst hp)
      exact ⟨p, mem_setKV_of_ne _ _ _ _ hp hne, rfl, le_refl _⟩
    · intro p hp
      rcases mem_setKV _ _ _ _ hp with h | h
      · exact Or.inr (by rw [h])
      · exact Or.inl h
  · have hmem : (normKey x.inputText, existing) ∈ m := lookupKV_some_mem _ _ _ hl
    have hred : (match some existing with
        | none => setKV m (normKey x.inputText) x
        | some existing =>
            if existing.timestamp < x.timestamp then setKV m (normKey x.inputText) x
            else m) =
        if existing.timestamp < x.timestamp then setKV m (normKey x.inputText) x
        else m := rfl
    rw [hred]
    by_cases hts : existing.timestamp < x.timestamp
    · rw [if_pos hts]
      refine ⟨?_, nodup_keys_setKV _ _ _ hnd, ?_, ?_, ?_⟩
      · intro p hp
        rcases mem_setKV _ _ _ _ hp with h | h
        · rw [h]
        · exact hks p h
      · exact ⟨(normKey x.inputText, x), self_mem_setKV _ _ _, rfl, le_refl _⟩
      · intro p hp
        by_cases hpk : p.1 = normKey x.inputText
        · have hpe : p = (normKey x.inputText, existing) :=
            keys_nodup_unique m hnd p _ hp hmem hpk
          refine ⟨(normKey x.inputText, x), self_mem_setKV _ _ _, ?_, ?_⟩
          · rw [hpe]
          · rw [hpe]
            exact le_of_lt hts
        · exact ⟨p, mem_setKV_of_ne _ _ _ _ hp hpk, rfl, le_refl _⟩
      · intro p hp
        rcases mem_setKV _ _ _ _ hp with h | h
        · exact Or.inr (by rw [h])
        · exact Or.inl h
    · rw [if_neg hts]
      refine ⟨hks, hnd, ?_, ?_, ?_⟩
      · exact ⟨(normKey x.inputText, existing), hmem, rfl, le_of_not_lt hts⟩
      · intro p hp
        exact ⟨p, hp, rfl, le_refl _⟩
      · intro p hp
        exact Or.inl hp

/-- Invariants of the whole `seen`-map fold of `deduplicateHistory`. -/
theorem dedup_fold (l : List SavedComparison) (m : List (String × SavedComparison))
    (hks : ∀ p ∈ m, normKey p.2.inputText = p.1)
    (hnd : (m.map Prod.fst).Nodup) :
    (∀ p ∈ l.foldl dedupStep m, normKey p.2.inputText = p.1) ∧
    (((l.foldl dedupStep m).map Prod.fst).Nodup) ∧
    (∀ it ∈ l, ∃ p ∈ l.foldl dedupStep m, p.1 = normKey it.inputText) ∧
    (∀ it ∈ l, ∀ p ∈ l.foldl dedupStep m, p.1 = normKey it.inputText →
      it.timestamp ≤ p.2.timestamp) ∧
    (∀ p ∈ m, ∃ q ∈ l.foldl dedupStep m, q.1 = p.1 ∧
      p.2.timestamp ≤ q.2.timestamp) ∧
    (∀ p ∈ l.foldl dedupStep m, p ∈ m ∨ p.2 ∈ l) := by
  induction l generalizing m with
  | nil =>
      refine ⟨hks, hnd, ?_, ?_, ?_, ?_⟩
      · intro it hit
        cases hit
      · intro it hit
        cases hit
      · intro p hp
        exact ⟨p, hp, rfl, le_refl _⟩
      · intro p hp
        exact Or.inl hp
  | cons x rest ih =>
      have hstep := dedupStep_facts m x hks hnd
      have hrec := ih (dedupStep m x) hstep.1 hstep.2.1
      simp only [List.foldl_cons]
      refine ⟨hrec.1, hrec.2.1, ?_, ?_, ?_, ?_⟩
      · intro it hit
        rcases List.mem_cons.mp hit with h | h
        · obtain ⟨p, hp, hpk, hpt⟩ := hstep.2.2.1
          obtain ⟨q, hq, hqk, hqt⟩ := hrec.2.2.2.2.1 p hp
          exact ⟨q, hq, by rw [hqk, hpk, h]⟩
        · exact hrec.2.2.1 it h
      · intro it hit p hp hpk
        rcases List.mem_cons.mp hit with h | h
        · subst h
          obtain ⟨p0, hp0, hp0k, hp0t⟩ := hstep.2.2.1
          obtain ⟨q, hq, hqk, hqt⟩ := hrec.2.2.2.2.1 p0 hp0
          have : p = q := by
            apply keys_nodup_unique _ hrec.2.1 p q hp hq
            rw [hpk, hqk, hp0k]
          rw [this]
          exact le_trans hp0t (le_trans hqt (le_refl _))
        · exact hrec.2.2.2.1 it h p hp hpk
      · intro p hp
        obtain ⟨q1, hq1, hq1k, hq1t⟩ := hstep.2.2.2.1 p hp
        obtain ⟨q2, hq2, hq2k, hq2t⟩ := hrec.2.2.2.2.1 q1 hq1
        exact ⟨q2, hq2, by rw [hq2k, hq1k], le_trans hq1t hq2t⟩
      · intro p hp
        rcases hrec.2.2.2.2.2 p hp with h | h
        · rcases hstep.2.2.2.2 p h with h2 | h2
          · exact Or.inl h2
          · exact Or.inr (by rw [h2]; exact List.mem_cons_self _ _)
        · exact Or.inr (List.mem_cons_of_mem _ h)

/-- The output of `deduplicateHistory` never holds two items with equal
normalized input. -/
theorem dedup_pairwise (l : List SavedComparison) :
    (deduplicateHistory l).Pairwise
      (fun a b => normKey a.inputText ≠ normKey b.inputText) := by
  have hf := dedup_fold l [] (fun p hp => absurd hp (List.not_mem_nil p)) (by simp)
  have h1 : (l.foldl dedupStep []).Pairwise (fun p q => p.1 ≠ q.1) :=
    (List.pairwise_map).mp hf.2.1
  have h2 : (l.foldl dedupStep []).Pairwise
      (fun p q => normKey p.2.inputText ≠ normKey q.2.inputText) := by
    refine List.Pairwise.imp_of_mem ?_ h1
    intro p q hp hq hne
    rw [hf.1 p hp, hf.1 q hq]
    exact hne
  have h3 : (valuesKV (l.foldl dedupStep [])).Pairwise
      (fun a b => normKey a.inputText ≠ normKey b.inputText) :=
    (List.pairwise_map).mpr h2
  exact ((sortTsDesc_perm _).pairwise_iff (fun h => h.symm)).mpr h3

/-- Every input item's timestamp is bounded by its key's survivor. -/
theorem dedup_max (l : List SavedComparison) (it o : SavedComparison)
    (hit : it ∈ l) (ho : o ∈ deduplicateHistory l)
    (hk : normKey it.inputText = normKey o.inputText) :
    it.timestamp ≤ o.timestamp := by
  have hf := dedup_fold l [] (fun p hp => absurd hp (List.not_mem_nil p)) (by simp)
  have ho2 : o ∈ valuesKV (l.foldl dedupStep []) :=
    ((sortTsDesc_perm _).mem_iff).mp ho
  obtain ⟨p, hp, hpe⟩ := List.mem_map.mp ho2
  have hpk : p.1 = normKey it.inputText := by
    rw [← hf.1 p hp, hpe, hk]
  have := hf.2.2.2.1 it hit p hp hpk
  rw [hpe] at this
  exact this

/-- Every input key is represented in the dedup output. -/
theorem dedup_retention (l : List SavedComparison) (it : SavedComparison)
    (hit : it ∈ l) :
    ∃ o ∈ deduplicateHistory l, normKey o.inputText = normKey it.inputText := by
  have hf := dedup_fold l [] (fun p hp => absurd hp (List.not_mem_nil p)) (by simp)
  obtain ⟨p, hp, hpk⟩ := hf.2.2.1 it hit
  refine ⟨p.2, ?_, ?_⟩
  · exact ((sortTsDesc_perm _).mem_iff).mpr (List.mem_map_of_mem Prod.snd hp)
  · rw [hf.1 p hp, hpk]

/-- The dedup output only contains input items. -/
theorem dedup_subset (l : List SavedComparison) (o : SavedComparison)
    (ho : o ∈ deduplicateHistory l) : o ∈ l := by
  have hf := dedup_fold l [] (fun p hp => absurd hp (List.not_mem_nil p)) (by simp)
  have ho2 : o ∈ valuesKV (l.foldl dedupStep []) :=
    ((sortTsDesc_perm _).mem_iff).mp ho
  obtain ⟨p, hp, hpe⟩ := List.mem_map.mp ho2
  rcases hf.2.2.2.2.2 p hp with h | h
  · exact absurd h (List.not_mem_nil p)
  · exact hpe ▸ h

/-- On an available store with a parsed array blob, `load` returns the
deduplicated validated list. -/
theorem getHistory_fst_arr (s : Store) (raws : List RawEntry)
    (hav : s.avail = true) (hb : s.blob = .arr raws) :
    (getHistory s).1 = deduplicateHistory (validateHistoryArray raws) := by
  unfold getHistory
  rw [if_pos hav, hb]

theorem dropWhile_idem (p : Char → Bool) (l : List Char) :
    (l.dropWhile p).dropWhile p = l.dropWhile p := by
  induction l with
  | nil => rfl
  | cons a l ih =>
      by_cases h : p a = true
      · rw [List.dropWhile_cons_of_pos h]
        exact ih
      · rw [List.dropWhile_cons_of_neg h, List.dropWhile_cons_of_neg h]

theorem dropWhile_of_isPrefix (p : Char → Bool) (A T : List Char)
    (hA : A.dropWhile p = A) (hpre : List.IsPrefix T A) :
    T.dropWhile p = T := by
  cases T with
  | nil => rfl
  | cons c T' =>
      obtain ⟨t, ht⟩ := hpre
      have hpc : p c = false := by
        by_contra hcon
        rw [Bool.not_eq_false] at hcon
        have : A.dropWhile p = (T' ++ t).dropWhile p := by
          rw [← ht, List.cons_append, List.dropWhile_cons_of_pos hcon]
        rw [hA] at this
        have hlen : A.length ≤ (T' ++ t).length :=
          this ▸ (List.dropWhile_suffix p).sublist.length_le
        rw [← ht] at hlen
        simp at hlen
      rw [List.dropWhile_cons_of_neg (by rw [hpc]; exact Bool.false_ne_true)]

theorem trimList_idem (l : List Char) : trimList (trimList l) = trimList l := by
  have hA : (l.dropWhile isJsWS).dropWhile isJsWS = l.dropWhile isJsWS :=
    dropWhile_idem isJsWS l
  have hTpre : List.IsPrefix
      (((l.dropWhile isJsWS).reverse.dropWhile isJsWS).reverse) (l.dropWhile isJsWS) := by
    have hsuf : List.IsSuffix ((l.dropWhile isJsWS).reverse.dropWhile isJsWS)
        (l.dropWhile isJsWS).reverse := List.dropWhile_suffix isJsWS
    obtain ⟨t, ht⟩ := hsuf
    refine ⟨t.reverse, ?_⟩
    have := congrArg List.reverse ht
    simpa using this
  have h1 : (((l.dropWhile isJsWS).reverse.dropWhile isJsWS).reverse).dropWhile isJsWS =
      ((l.dropWhile isJsWS).reverse.dropWhile isJsWS).reverse :=
    dropWhile_of_isPrefix isJsWS _ _ hA hTpre
  show trimList (((l.dropWhile isJsWS).reverse.dropWhile isJsWS).reverse) = _
  rw [trimList, h1, List.reverse_reverse, dropWhile_idem, ← trimList]

theorem jsTrim_idem (t : String) : jsTrim (jsTrim t) = jsTrim t :=
  congrArg String.mk (trimList_idem t.data)

theorem normKey_jsTrim (t : String) : normKey (jsTrim t) = normKey t := by
  unfold normKey
  rw [jsTrim_idem]

/-- The budget loop produces the accumulator followed by a sublist of the
remaining input. -/
theorem cleanupGo_eq_append (l : List SavedComparison) :
    ∀ (acc : List SavedComparison) (t : Nat),
      ∃ l', cleanupGo l acc t = acc ++ l' ∧ List.Sublist l' l := by
  induction l with
  | nil =>
      intro acc t
      exact ⟨[], by rw [cleanupGo, List.append_nil], List.Sublist.refl _⟩
  | cons item rest ih =>
      intro acc t
      rw [cleanupGo]
      by_cases h1 : MAX_ITEM_SIZE < estimateItemSize item
      · rw [if_pos h1]
        obtain ⟨l', hl', hs⟩ := ih acc t
        exact ⟨l', hl', hs.cons _⟩
      · rw [if_neg h1]
        by_cases h2 : MAX_TOTAL_SIZE < t + estimateItemSize item ∧ 0 < acc.length
        · rw [if_pos h2]
          exact ⟨[], (List.append_nil acc).symm, List.nil_sublist _⟩
        · rw [if_neg h2]
          by_cases h3 : MAX_HISTORY_ITEMS ≤ acc.length
          · rw [if_pos h3]
            exact ⟨[], (List.append_nil acc).symm, List.nil_sublist _⟩
          · rw [if_neg h3]
            obtain ⟨l', hl', hs⟩ := ih (acc ++ [item]) (t + estimateItemSize item)
            refine ⟨item :: l', ?_, hs.cons₂ _⟩
            rw [hl', List.append_assoc]
            rfl

/-- Validated entries of a written list are the list itself. -/
theorem validate_map_item (l : List SavedComparison) :
    validateHistoryArray (l.map RawEntry.item) = l := by
  induction l with
  | nil => rfl
  | cons x rest ih =>
      show x :: validateHistoryArray (rest.map RawEntry.item) = x :: rest
      rw [ih]

theorem setItem_ok (s : Store) (l : List SavedComparison)
    (hav : s.avail = true) (hok : s.failAt s.writes = .ok) :
    setItem s l =
      (.ok, { s with blob := .arr (l.map RawEntry.item), writes := s.writes + 1 }) := by
  unfold setItem
  rw [if_pos hav, hok]

theorem getHistory_after_setItem_ok (s : Store) (l : List SavedComparison)
    (hav : s.avail = true) (hok : s.failAt s.writes = .ok) :
    (getHistory (setItem s l).2).1 = deduplicateHistory l := by
  rw [setItem_ok s l hav hok]
  show (getHistory
    { s with blob := .arr (l.map RawEntry.item), writes := s.writes + 1 }).1 = _
  rw [getHistory_fst_arr { s with blob := .arr (l.map RawEntry.item), writes := s.writes + 1 } (l.map RawEntry.item) hav rfl, validate_map_item]

theorem setItem_const (s : Store) (l : List SavedComparison) :
    (setItem s l).2.avail = s.avail ∧ (setItem s l).2.failAt = s.failAt ∧
    (setItem s l).2.othersSize = s.othersSize := by
  unfold setItem
  by_cases hav : s.avail = true
  · rw [if_pos hav]
    cases s.failAt s.writes <;> exact ⟨rfl, rfl, rfl⟩
  · rw [if_neg hav]
    exact ⟨rfl, rfl, rfl⟩

theorem getHistory_const (s : Store) :
    (getHistory s).2.avail = s.avail ∧ (getHistory s).2.failAt = s.failAt ∧
    (getHistory s).2.othersSize = s.othersSize := by
  by_cases hav : s.avail = true
  · cases hb : s.blob with
    | absent =>
        have hred : (getHistory s).2 = s := by
          unfold getHistory
          rw [if_pos hav, hb]
        rw [hred]
        exact ⟨rfl, rfl, rfl⟩
    | corrupt t =>
        have hred : (getHistory s).2 = removeItem s := by
          unfold getHistory
          rw [if_pos hav, hb]
        rw [hred]
        unfold removeItem
        rw [if_pos hav]
        exact ⟨rfl, rfl, rfl⟩
    | arr raws =>
        have hred : (getHistory s).2 =
            if (validateHistoryArray raws).length ≠ raws.length
            then (setItem s (validateHistoryArray raws)).2 else s := by
          unfold getHistory
          rw [if_pos hav, hb]
        rw [hred]
        by_cases hv : (validateHistoryArray raws).length ≠ raws.length
        · rw [if_pos hv]
          exact setItem_const s _
        · rw [if_neg hv]
          exact ⟨rfl, rfl, rfl⟩
  · have hred : (getHistory s).2 = s := by
      unfold getHistory
      rw [if_neg hav]
    rw [hred]
    exact ⟨rfl, rfl, rfl⟩

/-- Facts about one step of the dedup-and-exclude fold of `save`. -/
theorem dedupExclStep_facts (nk : String) (m : List (String × SavedComparison))
    (x : SavedComparison)
    (hks : ∀ p ∈ m, normKey p.2.inputText = p.1)
    (hnd : (m.map Prod.fst).Nodup)
    (hne : ∀ p ∈ m, p.1 ≠ nk) :
    (∀ p ∈ dedupExclStep nk m x, normKey p.2.inputText = p.1) ∧
    (((dedupExclStep nk m x).map Prod.fst).Nodup) ∧
    (∀ p ∈ dedupExclStep nk m x, p.1 ≠ nk) ∧
    (∀ p ∈ dedupExclStep nk m x, p ∈ m ∨ p.2 = x) := by
  simp only [dedupExclStep]
  by_cases hkx : normKey x.inputText = nk
  · rw [if_pos hkx]
    exact ⟨hks, hnd, hne, fun p hp => Or.inl hp⟩
  · rw [if_neg hkx]
    rcases hl : lookupKV m (normKey x.inputText) with _ | existing
    · refine ⟨?_, nodup_keys_setKV _ _ _ hnd, ?_, ?_⟩
      · intro p hp
        rcases mem_setKV _ _ _ _ hp with h | h
        · rw [h]
        · exact hks p h
      · intro p hp
        rcases mem_setKV _ _ _ _ hp with h | h
        · rw [h]
          exact hkx
        · exact hne p h
      · intro p hp
        rcases mem_setKV _ _ _ _ hp with h | h
        · exact Or.inr (by rw [h])
        · exact Or.inl h
    · have hred : (match some existing with
          | none => setKV m (normKey x.inputText) x
          | some existing =>
              if existing.timestamp < x.timestamp then setKV m (normKey x.inputText) x
              else m) =
          if existing.timestamp < x.timestamp then setKV m (normKey x.inputText) x
          else m := rfl
      rw [hred]
      by_cases hts : existing.timestamp < x.timestamp
      · rw [if_pos hts]
        refine ⟨?_, nodup_keys_setKV _ _ _ hnd, ?_, ?_⟩
        · intro p hp
          rcases mem_setKV _ _ _ _ hp with h | h
          · rw [h]
          · exact hks p h
        · intro p hp
          rcases mem_setKV _ _ _ _ hp with h | h
          · rw [h]
            exact hkx
          · exact hne p h
        · intro p hp
          rcases mem_setKV _ _ _ _ hp with h | h
          · exact Or.inr (by rw [h])
          · exact Or.inl h
      · rw [if_neg hts]
        exact ⟨hks, hnd, hne, fun p hp => Or.inl hp⟩

/-- Invariants of the whole dedup-and-exclude fold of `save`. -/
theorem dedupExcl_fold (nk : String) (l : List SavedComparison) :
    (∀ p ∈ l.foldl (dedupExclStep nk) [], normKey p.2.inputText = p.1) ∧
    (∀ p ∈ l.foldl (dedupExclStep nk) [], p.1 ≠ nk) ∧
    (∀ p ∈ l.foldl (dedupExclStep nk) [], p.2 ∈ l) := by
  suffices h : ∀ (m : List (String × SavedComparison)),
      (∀ p ∈ m, normKey p.2.inputText = p.1) →
      ((m.map Prod.fst).Nodup) →
      (∀ p ∈ m, p.1 ≠ nk) →
      (∀ p ∈ l.foldl (dedupExclStep nk) m, normKey p.2.inputText = p.1) ∧
      (∀ p ∈ l.foldl (dedupExclStep nk) m, p.1 ≠ nk) ∧
      (∀ p ∈ l.foldl (dedupExclStep nk) m, p ∈ m ∨ p.2 ∈ l) by
    obtain ⟨h1, h2, h3⟩ := h [] (fun p hp => absurd hp (List.not_mem_nil p)) (by simp)
      (fun p hp => absurd hp (List.not_mem_nil p))
    refine ⟨h1, h2, ?_⟩
    intro p hp
    rcases h3 p hp with h | h
    · exact absurd h (List.not_mem_nil p)
    · exact h
  induction l with
  | nil =>
      intro m h1 h2 h3
      exact ⟨h1, h3, fun p hp => Or.inl hp⟩
  | cons x rest ih =>
      intro m h1 h2 h3
      have hstep := dedupExclStep_facts nk m x h1 h2 h3
      have hrec := ih (dedupExclStep nk m x) hstep.1 hstep.2.1 hstep.2.2.1
      simp only [List.foldl_cons]
      refine ⟨hrec.1, hrec.2.1, ?_⟩
      intro p hp
      rcases hrec.2.2 p hp with h | h
      · rcases hstep.2.2.2 p h with h4 | h4
        · exact Or.inl h4
        · exact Or.inr (by rw [h4]; exact List.mem_cons_self _ _)
      · exact Or.inr (List.mem_cons_of_mem _ h)

/-- The result of `load` is always empty or comes from an array blob. -/
theorem getHistory_fst_cases (s : Store) :
    (getHistory s).1 = [] ∨ ∃ raws, s.blob = .arr raws ∧
      (getHistory s).1 = deduplicateHistory (validateHistoryArray raws) := by
  by_cases hav : s.avail = true
  · cases hb : s.blob with
    | absent =>
        left
        unfold getHistory
        rw [if_pos hav, hb]
    | corrupt t =>
        left
        unfold getHistory
        rw [if_pos hav, hb]
    | arr raws =>
        exact Or.inr ⟨raws, rfl, getHistory_fst_arr s raws hav hb⟩
  · left
    unfold getHistory
    rw [if_neg hav]

/-- One dedup step grows the `seen` map by at most one entry. -/
theorem dedupStep_length_le (m : List (String × SavedComparison))
    (x : SavedComparison) :
    (dedupStep m x).length ≤ m.length + 1 := by
  rcases hl : lookupKV m (normKey x.inputText) with _ | e
  · simp only [dedupStep, hl]
    exact length_setKV_le m _ x
  · simp only [dedupStep, hl]
    by_cases ht : e.timestamp < x.timestamp
    · rw [if_pos ht]
      exact length_setKV_le m _ x
    · rw [if_neg ht]
      exact Nat.le_succ _

/-- One dedup step adds at most the item's weight to the stored values. -/
theorem dedupStep_sum_le (f : SavedComparison → Nat)
    (m : List (String × SavedComparison)) (x : SavedComparison) :
    ((valuesKV (dedupStep m x)).map f).sum ≤ ((valuesKV m).map f).sum + f x := by
  rcases hl : lookupKV m (normKey x.inputText) with _ | e
  · simp only [dedupStep, hl]
    exact sum_values_setKV_le f m _ x
  · simp only [dedupStep, hl]
    by_cases ht : e.timestamp < x.timestamp
    · rw [if_pos ht]
      exact sum_values_setKV_le f m _ x
    · rw [if_neg ht]
      exact Nat.le_add_right _ _

theorem dedup_foldl_length_le (l : List SavedComparison) :
    ∀ m, (l.foldl dedupStep m).length ≤ m.length + l.length := by
  induction l with
  | nil => intro m; simp
  | cons x xs ih =>
      intro m
      have h1 := ih (dedupStep m x)
      have h2 := dedupStep_length_le m x
      simp only [List.foldl_cons, List.length_cons]
      omega

theorem dedup_foldl_sum_le (f : SavedComparison → Nat) (l : List SavedComparison) :
    ∀ m, ((valuesKV (l.foldl dedupStep m)).map f).sum ≤
      ((valuesKV m).map f).sum + (l.map f).sum := by
  induction l with
  | nil => intro m; simp
  | cons x xs ih =>
      intro m
      have h1 := ih (dedupStep m x)
      have h2 := dedupStep_sum_le f m x
      simp only [List.foldl_cons, List.map_cons, List.sum_cons]
      omega

/-- Deduplication never lengthens the history. -/
theorem dedup_length_le (l : List SavedComparison) :
    (deduplicateHistory l).length ≤ l.length := by
  have h1 : (deduplicateHistory l).length =
      (valuesKV (l.foldl dedupStep [])).length :=
    (sortTsDesc_perm _).length_eq
  have h2 : (valuesKV (l.foldl dedupStep [])).length =
      (l.foldl dedupStep []).length := List.length_map _ _
  have h3 := dedup_foldl_length_le l []
  simp only [List.length_nil] at h3
  omega

/-- Deduplication never grows the total weight of the history. -/
theorem dedup_sum_le (l : List SavedComparison) (f : SavedComparison → Nat) :
    ((deduplicateHistory l).map f).sum ≤ (l.map f).sum := by
  have h1 : ((deduplicateHistory l).map f).sum =
      ((valuesKV (l.foldl dedupStep [])).map f).sum :=
    ((sortTsDesc_perm _).map f).sum_eq
  have h3 := dedup_foldl_sum_le f l []
  simp only [valuesKV, List.map_nil, List.sum_nil, Nat.zero_add] at h1 h3
  omega

/-- The id-keyed map of `updateComparison` holds at most one entry per
history item. -/
theorem foldl_setKV_length_le (l : List SavedComparison) :
    ∀ m : List (String × SavedComparison),
      (l.foldl (fun m it => setKV m it.id it) m).length ≤ m.length + l.length := by
  induction l with
  | nil => intro m; simp
  | cons x xs ih =>
      intro m
      have h1 := ih (setKV m x.id x)
      have h2 := length_setKV_le m x.id x
      simp only [List.foldl_cons, List.length_cons]
      omega

/-- The budget loop of `cleanupOldItems` never keeps more than
`MAX_HISTORY_ITEMS` items. -/
theorem cleanupGo_length (rest : List SavedComparison) :
    ∀ cleaned total, cleaned.length ≤ MAX_HISTORY_ITEMS →
      (cleanupGo rest cleaned total).length ≤ MAX_HISTORY_ITEMS := by
  induction rest with
  | nil => intro cleaned total h; exact h
  | cons item rest ih =>
      intro cleaned total h
      simp only [cleanupGo]
      by_cases h1 : MAX_ITEM_SIZE < estimateItemSize item
      · rw [if_pos h1]
        exact ih cleaned total h
      · rw [if_neg h1]
        by_cases h2 : MAX_TOTAL_SIZE < total + estimateItemSize item ∧ 0 < cleaned.length
        · rw [if_pos h2]
          exact h
        · rw [if_neg h2]
          by_cases h3 : MAX_HISTORY_ITEMS ≤ cleaned.length
          · rw [if_pos h3]
            exact h
          · rw [if_neg h3]
            apply ih
            simp only [List.length_append, List.length_cons, List.length_nil]
            omega

/-- The budget loop of `cleanupOldItems` never keeps more than
`MAX_TOTAL_SIZE` estimated bytes. -/
theorem cleanupGo_sum (rest : List SavedComparison) :
    ∀ cleaned total, total = (cleaned.map estimateItemSize).sum →
      total ≤ MAX_TOTAL_SIZE →
      ((cleanupGo rest cleaned total).map estimateItemSize).sum ≤ MAX_TOTAL_SIZE := by
  induction rest with
  | nil =>
      intro cleaned total ht hb
      simp only [cleanupGo]
      rw [← ht]
      exact hb
  | cons item rest ih =>
      intro cleaned total ht hb
      simp only [cleanupGo]
      by_cases h1 : MAX_ITEM_SIZE < estimateItemSize item
      · rw [if_pos h1]
        exact ih cleaned total ht hb
      · rw [if_neg h1]
        by_cases h2 : MAX_TOTAL_SIZE < total + estimateItemSize item ∧ 0 < cleaned.length
        · rw [if_pos h2]
          rw [← ht]
          exact hb
        · rw [if_neg h2]
          by_cases h3 : MAX_HISTORY_ITEMS ≤ cleaned.length
          · rw [if_pos h3]
            rw [← ht]
            exact hb
          · rw [if_neg h3]
            have hle : total + estimateItemSize item ≤ MAX_TOTAL_SIZE := by
              by_cases h5 : 0 < cleaned.length
              · have h6 : ¬ MAX_TOTAL_SIZE < total + estimateItemSize item :=
                  fun hgt => h2 ⟨hgt, h5⟩
                omega
              · have hnil : cleaned = [] := List.length_eq_zero.mp (by omega)
                rw [hnil] at ht
                simp only [List.map_nil, List.sum_nil] at ht
                have h7 : MAX_ITEM_SIZE ≤ MAX_TOTAL_SIZE := by decide
                omega
            apply ih (cleaned ++ [item]) (total + estimateItemSize item)
            · rw [List.map_append, List.sum_append, ← ht]
              simp
            · exact hle

theorem cleanupOldItems_length (history : List SavedComparison) :
    (cleanupOldItems history).length ≤ MAX_HISTORY_ITEMS := by
  apply cleanupGo_length
  simp [MAX_HISTORY_ITEMS]

theorem cleanupOldItems_sum (history : List SavedComparison) :
    ((cleanupOldItems history).map estimateItemSize).sum ≤ MAX_TOTAL_SIZE := by
  apply cleanupGo_sum
  · simp
  · exact Nat.zero_le _

/-- A `setItem` call either leaves the blob alone or replaces it with the
written list. -/
theorem setItem_blob (s : Store) (l : List SavedComparison) :
    (setItem s l).2.blob = s.blob ∨
    (setItem s l).2.blob = Blob.arr (l.map RawEntry.item) := by
  unfold setItem
  by_cases hav : s.avail = true
  · rw [if_pos hav]
    cases s.failAt s.writes
    · exact Or.inr rfl
    · exact Or.inl rfl
    · exact Or.inl rfl
  · rw [if_neg hav]
    exact Or.inl rfl

theorem removeItem_blob (s : Store) :
    (removeItem s).blob = s.blob ∨ (removeItem s).blob = Blob.absent := by
  unfold removeItem
  by_cases hav : s.avail = true
  · rw [if_pos hav]
    exact Or.inr rfl
  · rw [if_neg hav]
    exact Or.inl rfl

theorem HCount_setItem (s : Store) (l : List SavedComparison) (h : HCount s)
    (hl : l.length ≤ MAX_HISTORY_ITEMS) : HCount (setItem s l).2 := by
  intro raws hb
  rcases setItem_blob s l with hc | hc
  · rw [hc] at hb
    exact h raws hb
  · rw [hc] at hb
    rw [← Blob.arr.inj hb, validate_map_item]
    exact hl

theorem HSize_setItem (s : Store) (l : List SavedComparison) (h : HSize s)
    (hl : (l.map estimateItemSize).sum ≤ MAX_TOTAL_SIZE) : HSize (setItem s l).2 := by
  intro raws hb
  rcases setItem_blob s l with hc | hc
  · rw [hc] at hb
    exact h raws hb
  · rw [hc] at hb
    rw [← Blob.arr.inj hb, validate_map_item]
    exact hl

theorem HCount_removeItem (s : Store) (h : HCount s) : HCount (removeItem s) := by
  intro raws hb
  rcases removeItem_blob s with hc | hc
  · rw [hc] at hb
    exact h raws hb
  · rw [hc] at hb
    exact Blob.noConfusion hb

theorem HSize_removeItem (s : Store) (h : HSize s) : HSize (removeItem s) := by
  intro raws hb
  rcases removeItem_blob s with hc | hc
  · rw [hc] at hb
    exact h raws hb
  · rw [hc] at hb
    exact Blob.noConfusion hb

/-- A `load` leaves the adapter state alone, removes a corrupt blob, or
self-heals by rewriting the validated entries. -/
theorem getHistory_snd_cases (s : Store) :
    (getHistory s).2 = s ∨ (getHistory s).2 = removeItem s ∨
    ∃ raws, s.blob = Blob.arr raws ∧
      (getHistory s).2 = (setItem s (validateHistoryArray raws)).2 := by
  by_cases hav : s.avail = true
  · cases hb : s.blob with
    | absent =>
        left
        unfold getHistory
        rw [if_pos hav, hb]
    | corrupt t =>
        right; left
        unfold getHistory
        rw [if_pos hav, hb]
    | arr raws =>
        by_cases hne : (validateHistoryArray raws).length ≠ raws.length
        · right; right
          refine ⟨raws, rfl, ?_⟩
          unfold getHistory
          rw [if_pos hav, hb]
          show (if (validateHistoryArray raws).length ≠ raws.length then
            (setItem s (validateHistoryArray raws)).2 else s) =
            (setItem s (validateHistoryArray raws)).2
          rw [if_pos hne]
        · left
          unfold getHistory
          rw [if_pos hav, hb]
          show (if (validateHistoryArray raws).length ≠ raws.length then
            (setItem s (validateHistoryArray raws)).2 else s) = s
          rw [if_neg hne]
  · left
    unfold getHistory
    rw [if_neg hav]

theorem HCount_getHistory (s : Store) (h : HCount s) : HCount (getHistory s).2 := by
  rcases getHistory_snd_cases s with hc | hc | ⟨raws, hb, hc⟩
  · rw [hc]; exact h
  · rw [hc]; exact HCount_removeItem s h
  · rw [hc]
    exact HCount_setItem s _ h (h raws hb)

theorem HSize_getHistory (s : Store) (h : HSize s) : HSize (getHistory s).2 := by
  rcases getHistory_snd_cases s with hc | hc | ⟨raws, hb, hc⟩
  · rw [hc]; exact h
  · rw [hc]; exact HSize_removeItem s h
  · rw [hc]
    exact HSize_setItem s _ h (h raws hb)

/-- Both halves of the budget transfer from the stored blob to `load()`. -/
theorem load_length_of_HCount (s : Store) (h : HCount s) :
    (getHistory s).1.length ≤ MAX_HISTORY_ITEMS := by
  rcases getHistory_fst_cases s with he | ⟨raws, hb, he⟩
  · rw [he]
    exact Nat.zero_le _
  · rw [he]
    exact le_trans (dedup_length_le _) (h raws hb)

theorem load_sum_of_HSize (s : Store) (h : HSize s) :
    ((getHistory s).1.map estimateItemSize).sum ≤ MAX_TOTAL_SIZE := by
  rcases getHistory_fst_cases s with he | ⟨raws, hb, he⟩
  · rw [he]
    exact Nat.zero_le _
  · rw [he]
    exact le_trans (dedup_sum_le _ _) (h raws hb)

/-- Transfer of the count budget across an observed `setItem` call. -/
theorem HCount_of_setItem_eq {s s' : Store} {l : List SavedComparison}
    {o : Cache.WriteOutcome} (hw : setItem s l = (o, s'))
    (h : HCount s) (hl : l.length ≤ MAX_HISTORY_ITEMS) : HCount s' := by
  have hx := HCount_setItem s l h hl
  rw [hw] at hx
  exact hx

/-- Transfer of the byte budget across an observed `setItem` call. -/
theorem HSize_of_setItem_eq {s s' : Store} {l : List SavedComparison}
    {o : Cache.WriteOutcome} (hw : setItem s l = (o, s'))
    (h : HSize s) (hl : (l.map estimateItemSize).sum ≤ MAX_TOTAL_SIZE) :
    HSize s' := by
  have hx := HSize_setItem s l h hl
  rw [hw] at hx
  exact hx

theorem HCount_aggr (saved : SavedComparison) (hist : List SavedComparison)
    (s : Store) (h : HCount s) : HCount (aggressiveRetry saved hist s).2 := by
  simp only [aggressiveRetry]
  rcases hw : setItem s (cleanupOldItems (hist.take (aggressiveCount hist.length)))
    with ⟨o, s'⟩
  have hs' : HCount s' := HCount_of_setItem_eq hw h (cleanupOldItems_length _)
  cases o
  · exact hs'
  · exact hs'
  · exact hs'

theorem HSize_aggr (saved : SavedComparison) (hist : List SavedComparison)
    (s : Store) (h : HSize s) : HSize (aggressiveRetry saved hist s).2 := by
  simp only [aggressiveRetry]
  rcases hw : setItem s (cleanupOldItems (hist.take (aggressiveCount hist.length)))
    with ⟨o, s'⟩
  have hs' : HSize s' := HSize_of_setItem_eq hw h (cleanupOldItems_sum _)
  cases o
  · exact hs'
  · exact hs'
  · exact hs'

/-- `saveComparison` keeps the count budget: every write is a
`cleanupOldItems` output. -/
theorem HCount_save (i : String) (n : Nat) (t r : String)
    (tg : Option (List String)) (no : Option String) (s : Store) (h : HCount s) :
    HCount (saveComparison i n t r tg no s).2 := by
  have hG : HCount (getHistory s).2 := HCount_getHistory s h
  simp only [saveComparison]
  split
  · exact h
  split
  · exact h
  split
  · split
    next s' heq =>
      exact HCount_of_setItem_eq heq hG (cleanupOldItems_length _)
    next s' heq =>
      exact HCount_aggr _ _ s' (HCount_of_setItem_eq heq hG (cleanupOldItems_length _))
    next s' heq =>
      exact HCount_of_setItem_eq heq hG (cleanupOldItems_length _)
  · split
    next s' heq =>
      exact HCount_of_setItem_eq heq hG (cleanupOldItems_length _)
    next s' heq =>
      exact HCount_aggr _ _ s' (HCount_of_setItem_eq heq hG (cleanupOldItems_length _))
    next s' heq =>
      exact HCount_of_setItem_eq heq hG (cleanupOldItems_length _)

/-- `saveComparison` keeps the byte budget: every write is a
`cleanupOldItems` output. -/
theorem HSize_save (i : String) (n : Nat) (t r : String)
    (tg : Option (List String)) (no : Option String) (s : Store) (h : HSize s) :
    HSize (saveComparison i n t r tg no s).2 := by
  have hG : HSize (getHistory s).2 := HSize_getHistory s h
  simp only [saveComparison]
  split
  · exact h
  split
  · exact h
  split
  · split
    next s' heq =>
      exact HSize_of_setItem_eq heq hG (cleanupOldItems_sum _)
    next s' heq =>
      exact HSize_aggr _ _ s' (HSize_of_setItem_eq heq hG (cleanupOldItems_sum _))
    next s' heq =>
      exact HSize_of_setItem_eq heq hG (cleanupOldItems_sum _)
  · split
    next s' heq =>
      exact HSize_of_setItem_eq heq hG (cleanupOldItems_sum _)
    next s' heq =>
      exact HSize_aggr _ _ s' (HSize_of_setItem_eq heq hG (cleanupOldItems_sum _))
    next s' heq =>
      exact HSize_of_setItem_eq heq hG (cleanupOldItems_sum _)

/-- `deleteComparison` keeps the count budget: it writes a filtered
sublist of `load()`. -/
theorem HCount_del (id : String) (s : Store) (h : HCount s) :
    HCount (deleteComparison id s).2 := by
  have hG : HCount (getHistory s).2 := HCount_getHistory s h
  have hlen : ((getHistory s).1.filter (fun it => ¬ it.id = id)).length ≤
      MAX_HISTORY_ITEMS :=
    le_trans (List.length_filter_le _ _) (load_length_of_HCount s h)
  simp only [deleteComparison]
  rcases hw : setItem (getHistory s).2
      ((getHistory s).1.filter (fun it => ¬ it.id = id)) with ⟨o, s'⟩
  have hs' : HCount s' := HCount_of_setItem_eq hw hG hlen
  split
  · exact hG
  · cases o
    · exact hs'
    · exact hs'
    · exact hs'

/-- `deleteComparison` keeps the byte budget: it writes a filtered
sublist of `load()`. -/
theorem HSize_del (id : String) (s : Store) (h : HSize s) :
    HSize (deleteComparison id s).2 := by
  have hG : HSize (getHistory s).2 := HSize_getHistory s h
  have hsum : (((getHistory s).1.filter (fun it => ¬ it.id = id)).map
      estimateItemSize).sum ≤ MAX_TOTAL_SIZE :=
    le_trans (sum_le_of_sublist ((List.filter_sublist _).map estimateItemSize))
      (load_sum_of_HSize s h)
  simp only [deleteComparison]
  rcases hw : setItem (getHistory s).2
      ((getHistory s).1.filter (fun it => ¬ it.id = id)) with ⟨o, s'⟩
  have hs' : HSize s' := HSize_of_setItem_eq hw hG hsum
  split
  · exact hG
  · cases o
    · exact hs'
    · exact hs'
    · exact hs'

/-- `updateComparison` keeps the count budget: the id map holds at most
one entry per loaded item and the patch replaces in place. -/
theorem HCount_update (id : String) (tg : Option (List String))
    (no : Option String) (s : Store) (h : HCount s) :
    HCount (updateComparison id tg no s).2 := by
  have hG : HCount (getHistory s).2 := HCount_getHistory s h
  simp only [updateComparison]
  rcases hl : lookupKV ((getHistory s).1.foldl (fun m it => setKV m it.id it) []) id
    with _ | existing
  · simp only [hl]
    exact hG
  · simp only [hl]
    have hlen : (valuesKV (setKV
        ((getHistory s).1.foldl (fun m it => setKV m it.id it) []) id
        (applyPatch existing tg no))).length ≤ MAX_HISTORY_ITEMS := by
      have h1 := length_setKV
        ((getHistory s).1.foldl (fun m it => setKV m it.id it) []) id
        (applyPatch existing tg no)
      rw [hl] at h1
      simp only [Option.isNone_some, Bool.false_eq_true, if_false] at h1
      have h2 := foldl_setKV_length_le (getHistory s).1 []
      have h3 := load_length_of_HCount s h
      simp only [List.length_nil, Nat.zero_add] at h2
      simp only [valuesKV, List.length_map]
      omega
    rcases hw : setItem (getHistory s).2
        (valuesKV (setKV ((getHistory s).1.foldl (fun m it => setKV m it.id it) []) id
          (applyPatch existing tg no))) with ⟨o, s'⟩
    have hs' : HCount s' := HCount_of_setItem_eq hw hG hlen
    rw [hw]
    cases o
    · exact hs'
    · exact hs'
    · exact hs'

theorem searchHistory_snd (q : String) (s : Store) :
    (searchHistory q s).2 = (getHistory s).2 := by
  simp only [searchHistory]
  split
  · rfl
  · rfl

theorem HCount_stepH (s : Store) (op : HOp) (h : HCount s) :
    HCount (stepH s op) := by
  cases op with
  | save i n t r tg no => exact HCount_save i n t r tg no s h
  | del i => exact HCount_del i s h
  | update i tg no => exact HCount_update i tg no s h
  | clear => exact HCount_removeItem s h
  | load => exact HCount_getHistory s h
  | search q =>
      show HCount (searchHistory q s).2
      rw [searchHistory_snd]
      exact HCount_getHistory s h

theorem HSize_stepH (s : Store) (op : HOp) (h : HSize s)
    (hop : isUpd op = false) : HSize (stepH s op) := by
  cases op with
  | save i n t r tg no => exact HSize_save i n t r tg no s h
  | del i => exact HSize_del i s h
  | update i tg no => exact Bool.noConfusion hop
  | clear => exact HSize_removeItem s h
  | load => exact HSize_getHistory s h
  | search q =>
      show HSize (searchHistory q s).2
      rw [searchHistory_snd]
      exact HSize_getHistory s h

theorem HCount_runH (s : Store) (ops : List HOp) (h : HCount s) :
    HCount (runH s ops) := by
  induction ops generalizing s with
  | nil => exact h
  | cons op rest ih => exact ih (stepH s op) (HCount_stepH s op h)

theorem HSize_runH (s : Store) (ops : List HOp) (h : HSize s)
    (hupd : hasUpd ops = false) : HSize (runH s ops) := by
  induction ops generalizing s with
  | nil => exact h
  | cons op rest ih =>
      have h2 : isUpd op = false ∧ hasUpd rest = false := by
        simp only [hasUpd, List.any_cons, Bool.or_eq_false_iff] at hupd
        exact hupd
      exact ih (stepH s op) (HSize_stepH s op h h2.1) h2.2

end Hist

/-- Claim C3: whatever the stored blob (duplicates and junk included),
`load()`/`getHistory` never returns two items whose trimmed, lower-cased
`inputText` coincide; and (on an available adapter) the survivor of each
normalized input carries a timestamp at least as large as every stored
valid item with that input, with every stored key represented. -/
theorem claim_C3 (s : Hist.Store) :
    ((Hist.getHistory s).1.Pairwise
      (fun a b => Hist.normKey a.inputText ≠ Hist.normKey b.inputText)) ∧
    (s.avail = true → ∀ raws, s.blob = .arr raws →
      (∀ it ∈ Hist.validateHistoryArray raws, ∀ o ∈ (Hist.getHistory s).1,
        Hist.normKey it.inputText = Hist.normKey o.inputText →
        it.timestamp ≤ o.timestamp) ∧
      (∀ it ∈ Hist.validateHistoryArray raws, ∃ o ∈ (Hist.getHistory s).1,
        Hist.normKey o.inputText = Hist.normKey it.inputText)) := by
  constructor
  · rcases Hist.getHistory_fst_cases s with h | ⟨raws, _, h⟩
    · rw [h]
      exact List.Pairwise.nil
    · rw [h]
      exact Hist.dedup_pairwise _
  · intro hav raws hb
    rw [Hist.getHistory_fst_arr s raws hav hb]
    constructor
    · intro it hit o ho hk
      exact Hist.dedup_max _ it o hit ho hk
    · intro it hit
      exact Hist.dedup_retention _ it hit

/-- A store whose blob holds two items with the same normalized input
("X" at t=5 and " x " at t=9), one junk entry, and an unrelated item. -/
def c3store : Hist.Store :=
  { avail := true,
    blob := .arr [Hist.RawEntry.item ⟨"a", 5, "X", "\x7b\x7d", none, none⟩,
      Hist.RawEntry.item ⟨"b", 9, " x ", "\x7b\x7d", none, none⟩,
      Hist.RawEntry.junk "3",
      Hist.RawEntry.item ⟨"c", 7, "y", "\x7b\x7d", none, none⟩],
    othersSize := 0, writes := 0, failAt := fun _ => .ok }

def c3raws : List Hist.RawEntry :=
  [Hist.RawEntry.item ⟨"a", 5, "X", "\x7b\x7d", none, none⟩,
    Hist.RawEntry.item ⟨"b", 9, " x ", "\x7b\x7d", none, none⟩,
    Hist.RawEntry.junk "3",
    Hist.RawEntry.item ⟨"c", 7, "y", "\x7b\x7d", none, none⟩]

/-- Witness for C3 at a concrete input: on a blob holding "X"@5 and
" x "@9, the surviving item for that key dominates the dropped one. -/
theorem claim_C3_witness :
    (⟨"a", 5, "X", "\x7b\x7d", none, none⟩ : Hist.SavedComparison).timestamp ≤
      (⟨"b", 9, " x ", "\x7b\x7d", none, none⟩ : Hist.SavedComparison).timestamp :=
  ((claim_C3 c3store).2 rfl c3raws rfl).1
    ⟨"a", 5, "X", "\x7b\x7d", none, none⟩ (by decide)
    ⟨"b", 9, " x ", "\x7b\x7d", none, none⟩ (by decide) (by decide)

/-- Claim C5: saving two input texts with equal normalized (trimmed,
case-folded) forms — result A then result B — leaves exactly one item for
that normalized input in `load()`, and it is the second candidate: second
timestamp, result B. Hypotheses: the second candidate is valid, its
timestamp exceeds every loaded timestamp (monotone clock), the adapter is
available with successful writes, and the pre-emptive global-quota prune
is not triggered. -/
theorem claim_C5 (idA idB : String) (tA tB : Nat) (txtA txtB resA resB : String)
    (s0 s1 : Hist.Store)
    (hs1 : s1 = (Hist.saveComparison idA tA txtA resA none none s0).2)
    (hkey : Hist.normKey txtA = Hist.normKey txtB)
    (hval : ¬ jsTrim txtB = "")
    (hsize : ¬ Hist.MAX_ITEM_SIZE < Hist.estimateItemSize
      (Hist.mkCandidate idB tB txtB resB none none))
    (hts : ∀ it ∈ (Hist.getHistory s1).1, it.timestamp < tB)
    (hav : s1.avail = true)
    (hok : ∀ i, s1.failAt i = Cache.WriteOutcome.ok)
    (hpre : ¬ Hist.MAX_TOTAL_SIZE <
      Hist.getTotalStorageSize (Hist.getHistory s1).2 -
        Hist.getStorageSize (Hist.getHistory s1).2 +
        utf8Len (Hist.serializeList (Hist.cleanupOldItems
          (Hist.mkCandidate idB tB txtB resB none none ::
            valuesKV ((Hist.getHistory s1).1.foldl
              (Hist.dedupExclStep (Hist.normKey
                (Hist.mkCandidate idB tB txtB resB none none).inputText)) []))))) :
    (Hist.saveComparison idB tB txtB resB none none s1).1 =
      some (Hist.mkCandidate idB tB txtB resB none none) ∧
    Hist.mkCandidate idB tB txtB resB none none ∈
      (Hist.getHistory (Hist.saveComparison idB tB txtB resB none none s1).2).1 ∧
    (∀ y ∈ (Hist.getHistory (Hist.saveComparison idB tB txtB resB none none s1).2).1,
      Hist.normKey y.inputText = Hist.normKey txtB →
      y = Hist.mkCandidate idB tB txtB resB none none) := by
  have hcne : ¬ (Hist.mkCandidate idB tB txtB resB none none).inputText = "" := hval
  have hnk : Hist.normKey (Hist.mkCandidate idB tB txtB resB none none).inputText =
      Hist.normKey txtB := Hist.normKey_jsTrim txtB
  have hGc := Hist.getHistory_const s1
  have hGav : (Hist.getHistory s1).2.avail = true := by rw [hGc.1]; exact hav
  have hGok : ∀ i, (Hist.getHistory s1).2.failAt i = Cache.WriteOutcome.ok := by
    intro i
    rw [hGc.2.1]
    exact hok i
  -- structure of the dedup-and-exclude fold
  have hdf := Hist.dedupExcl_fold (Hist.normKey
    (Hist.mkCandidate idB tB txtB resB none none).inputText) (Hist.getHistory s1).1
  have hothers_key : ∀ o ∈ valuesKV ((Hist.getHistory s1).1.foldl
      (Hist.dedupExclStep (Hist.normKey
        (Hist.mkCandidate idB tB txtB resB none none).inputText)) []),
      Hist.normKey o.inputText ≠ Hist.normKey
        (Hist.mkCandidate idB tB txtB resB none none).inputText := by
    intro o ho
    obtain ⟨p, hp, hpe⟩ := List.mem_map.mp ho
    rw [← hpe, hdf.1 p hp]
    exact hdf.2.1 p hp
  have hothers_ts : ∀ o ∈ valuesKV ((Hist.getHistory s1).1.foldl
      (Hist.dedupExclStep (Hist.normKey
        (Hist.mkCandidate idB tB txtB resB none none).inputText)) []),
      o.timestamp < tB := by
    intro o ho
    obtain ⟨p, hp, hpe⟩ := List.mem_map.mp ho
    exact hts o (hpe ▸ hdf.2.2 p hp)
  -- cleanup keeps the candidate first
  obtain ⟨l', hl', hsub⟩ := Hist.cleanupGo_eq_append
    (Hist.sortTsDesc (valuesKV ((Hist.getHistory s1).1.foldl
      (Hist.dedupExclStep (Hist.normKey
        (Hist.mkCandidate idB tB txtB resB none none).inputText)) [])))
    [Hist.mkCandidate idB tB txtB resB none none]
    (0 + Hist.estimateItemSize (Hist.mkCandidate idB tB txtB resB none none))
  have hsorted : Hist.sortTsDesc (Hist.mkCandidate idB tB txtB resB none none ::
      valuesKV ((Hist.getHistory s1).1.foldl
        (Hist.dedupExclStep (Hist.normKey
          (Hist.mkCandidate idB tB txtB resB none none).inputText)) [])) =
      Hist.mkCandidate idB tB txtB resB none none ::
      Hist.sortTsDesc (valuesKV ((Hist.getHistory s1).1.foldl
        (Hist.dedupExclStep (Hist.normKey
          (Hist.mkCandidate idB tB txtB resB none none).inputText)) [])) := by
    show Hist.insTs _ _ = _
    refine Hist.insTs_eq_cons _ _ ?_
    intro y hy
    have := hothers_ts y ((Hist.mem_sortTsDesc _ y).mp hy)
    exact le_of_lt this
  have hh3 : Hist.cleanupOldItems (Hist.mkCandidate idB tB txtB resB none none ::
      valuesKV ((Hist.getHistory s1).1.foldl
        (Hist.dedupExclStep (Hist.normKey
          (Hist.mkCandidate idB tB txtB resB none none).inputText)) [])) =
      Hist.mkCandidate idB tB txtB resB none none :: l' := by
    unfold Hist.cleanupOldItems
    rw [hsorted, Hist.cleanupGo, if_neg hsize,
      if_neg (by simp : ¬ (Hist.MAX_TOTAL_SIZE <
        0 + Hist.estimateItemSize (Hist.mkCandidate idB tB txtB resB none none) ∧
        0 < ([] : List Hist.SavedComparison).length)),
      if_neg (by decide :
        ¬ Hist.MAX_HISTORY_ITEMS ≤ ([] : List Hist.SavedComparison).length)]
    simp only [List.nil_append]
    rw [hl']
    rfl
  -- every element of the written list with the candidate's key is the candidate
  have honly : ∀ y ∈ Hist.mkCandidate idB tB txtB resB none none :: l',
      Hist.normKey y.inputText = Hist.normKey txtB →
      y = Hist.mkCandidate idB tB txtB resB none none := by
    intro y hy hyk
    rcases List.mem_cons.mp hy with h | h
    · exact h
    · exfalso
      have hmem : y ∈ valuesKV ((Hist.getHistory s1).1.foldl
          (Hist.dedupExclStep (Hist.normKey
            (Hist.mkCandidate idB tB txtB resB none none).inputText)) []) :=
        (Hist.mem_sortTsDesc _ y).mp (hsub.mem h)
      exact hothers_key y hmem (by rw [hyk, hnk])
  -- the save itself
  have hsave : Hist.saveComparison idB tB txtB resB none none s1 =
      (some (Hist.mkCandidate idB tB txtB resB none none),
        (Hist.setItem (Hist.getHistory s1).2 (Hist.cleanupOldItems
          (Hist.mkCandidate idB tB txtB resB none none ::
            valuesKV ((Hist.getHistory s1).1.foldl
              (Hist.dedupExclStep (Hist.normKey
                (Hist.mkCandidate idB tB txtB resB none none).inputText)) [])))).2) := by
    simp only [Hist.saveComparison]
    rw [if_neg hcne, if_neg hsize, if_neg hpre,
      Hist.setItem_ok _ _ hGav (hGok _)]
  have hs2blob : (Hist.saveComparison idB tB txtB resB none none s1).2 =
      (Hist.setItem (Hist.getHistory s1).2 (Hist.cleanupOldItems
        (Hist.mkCandidate idB tB txtB resB none none ::
          valuesKV ((Hist.getHistory s1).1.foldl
            (Hist.dedupExclStep (Hist.normKey
              (Hist.mkCandidate idB tB txtB resB none none).inputText)) [])))).2 := by
    rw [hsave]
  have hload : (Hist.getHistory
      (Hist.saveComparison idB tB txtB resB none none s1).2).1 =
      Hist.deduplicateHistory (Hist.mkCandidate idB tB txtB resB none none :: l') := by
    rw [hs2blob, Hist.getHistory_after_setItem_ok _ _ hGav (hGok _), hh3]
  refine ⟨by rw [hsave], ?_, ?_⟩
  · rw [hload]
    obtain ⟨o, ho, hko⟩ := Hist.dedup_retention _
      (Hist.mkCandidate idB tB txtB resB none none) (List.mem_cons_self _ _)
    have : o = Hist.mkCandidate idB tB txtB resB none none :=
      honly o (Hist.dedup_subset _ o ho) (by rw [hko, hnk])
    exact this ▸ ho
  · intro y hy hyk
    rw [hload] at hy
    exact honly y (Hist.dedup_subset _ y hy) hyk

/-- The empty history store over an all-successful adapter. -/
def c5s0 : Hist.Store :=
  { avail := true, blob := .absent, othersSize := 0, writes := 0,
    failAt := fun _ => .ok }

/-- The store after `save("Order 123", A)` at t=1. -/
def c5s1 : Hist.Store :=
  (Hist.saveComparison "a" 1 "Order 123" "\x7b\x7d" none none c5s0).2

/-- Witness for C5 at the spec's scenario C: `save("Order 123", A)` then
`save("  order 123 ", B)` leaves the second candidate in history. -/
theorem claim_C5_witness :
    (Hist.saveComparison "b" 2 "  order 123 " "\x7b\x7d" none none c5s1).1 =
      some (Hist.mkCandidate "b" 2 "  order 123 " "\x7b\x7d" none none) ∧
    Hist.mkCandidate "b" 2 "  order 123 " "\x7b\x7d" none none ∈
      (Hist.getHistory
        (Hist.saveComparison "b" 2 "  order 123 " "\x7b\x7d" none none c5s1).2).1 :=
  ⟨(claim_C5 "a" "b" 1 2 "Order 123" "  order 123 " "\x7b\x7d" "\x7b\x7d" c5s0 c5s1
      rfl (by decide) (by decide) (by decide) (by decide) rfl (fun i => rfl)
      (by decide)).1,
   (claim_C5 "a" "b" 1 2 "Order 123" "  order 123 " "\x7b\x7d" "\x7b\x7d" c5s0 c5s1
      rfl (by decide) (by decide) (by decide) (by decide) rfl (fun i => rfl)
      (by decide)).2.1⟩

namespace Cache

theorem save_clean_blob_quota (fuel : Nat) :
    (∀ (now : Nat) (s : CState T), (∀ i, s.failAt i = .quota) →
      (saveToStorageF fuel now s).blob = s.blob) ∧
    (∀ (now : Nat) (s : CState T), (∀ i, s.failAt i = .quota) →
      ((cleanExpiredF fuel now s).2).blob = s.blob) := by
  induction fuel with
  | zero => exact ⟨fun _ _ _ => rfl, fun _ _ _ => rfl⟩
  | succ n ih =>
      constructor
      · intro now s hq
        rw [saveF_eq_quota n now s (hq s.writes)]
        set s2 := (cleanExpiredF n now ({ s with writes := s.writes + 1 } : CState T)).2
          with hs2
        have hq2 : ∀ i, s2.failAt i = .quota := by
          intro i
          rw [hs2, ((save_clean_basic (T := T) n).2 now _).2.2.1]
          exact hq i
        have hb2 : s2.blob = s.blob :=
          ih.2 now ({ s with writes := s.writes + 1 } : CState T) hq
        set s3 := pruneLoop (2 * s2.cache.length + 2) s2 with hs3
        have hpc := pruneLoop_const (2 * s2.cache.length + 2) s2
        have hq3 : s3.failAt s3.writes = .quota := by
          rw [hs3, hpc.2.2.2.2]
          exact hq2 _
        rw [retryOnce_blob_fail s3 (by rw [hq3]; intro hcon; cases hcon), hs3,
          hpc.2.2.1, hb2]
      · intro now s hq
        by_cases hks : 0 < (cleanKeys now s.cache).length
        · rw [cleanF_eq_pos n now s hks]
          exact ih.1 now _ hq
        · rw [cleanF_eq_zero n now s hks]

end Cache

/-- Claim C7: no public operation of either component lets an adapter
failure escape — each is a total function into an `Option`/`Bool` result.
Concretely: (i) with an adapter whose every write raises `QuotaExceeded`,
a valid `save` returns absent after exactly its initial write plus one
retry, leaving the durable blob unchanged; (ii) with the adapter entirely
unavailable, `save` returns absent and `load` returns the empty list, the
blob untouched; (iii) with an unparsable blob, `load` returns the empty
list and discards the corrupted blob; (iv) the cache's `saveToStorage`
under an all-quota adapter abandons the write, leaving its blob
unchanged. -/
theorem claim_C7 :
    (∀ (idStr : String) (now : Nat) (inputText result : String)
        (tags : Option (List String)) (notes : Option String) (s : Hist.Store),
      s.avail = true → (∀ i, s.failAt i = .quota) →
      (Hist.getHistory s).2 = s →
      jsTrim inputText ≠ "" →
      ¬ Hist.MAX_ITEM_SIZE < Hist.estimateItemSize
        (Hist.mkCandidate idStr now inputText result tags notes) →
      (Hist.saveComparison idStr now inputText result tags notes s).1 = none ∧
      (Hist.saveComparison idStr now inputText result tags notes s).2.blob = s.blob ∧
      (Hist.saveComparison idStr now inputText result tags notes s).2.writes =
        s.writes + 2) ∧
    (∀ (idStr : String) (now : Nat) (inputText result : String)
        (tags : Option (List String)) (notes : Option String) (s : Hist.Store),
      s.avail = false →
      (Hist.saveComparison idStr now inputText result tags notes s).1 = none ∧
      (Hist.saveComparison idStr now inputText result tags notes s).2.blob = s.blob ∧
      (Hist.getHistory s).1 = []) ∧
    (∀ (s : Hist.Store) (t : String), s.avail = true → s.blob = .corrupt t →
      (Hist.getHistory s).1 = [] ∧ (Hist.getHistory s).2.blob = .absent) ∧
    (∀ (T : Type) (now : Nat) (s : Cache.CState T), (∀ i, s.failAt i = .quota) →
      (Cache.saveToStorageF 4 now s).blob = s.blob) := by
  refine ⟨?_, ?_, ?_, ?_⟩
  · intro idStr now inputText result tags notes s havail hq hnoheal hne hsize
    have hinp : (Hist.mkCandidate idStr now inputText result tags notes).inputText =
        jsTrim inputText := rfl
    have hset : ∀ l, Hist.setItem s l =
        (.quota, { s with writes := s.writes + 1 }) := by
      intro l
      unfold Hist.setItem
      rw [if_pos havail, hq s.writes]
    have hset2 : ∀ l, Hist.setItem ({ s with writes := s.writes + 1 } : Hist.Store) l =
        (.quota, { s with writes := s.writes + 2 }) := by
      intro l
      unfold Hist.setItem
      rw [if_pos havail, hq (s.writes + 1)]
    have hagg : ∀ saved l, Hist.aggressiveRetry saved l
        ({ s with writes := s.writes + 1 } : Hist.Store) =
        (none, { s with writes := s.writes + 2 }) := by
      intro saved l
      simp only [Hist.aggressiveRetry]
      rw [hset2]
    simp only [Hist.saveComparison]
    rw [hinp, if_neg hne, if_neg hsize, hnoheal]
    simp only [hset, hagg, ite_self]
    exact ⟨trivial, trivial, trivial⟩
  · intro idStr now inputText result tags notes s hun
    have hgh : Hist.getHistory s = ([], s) := by
      unfold Hist.getHistory
      rw [hun]
      simp
    have hset : ∀ l, Hist.setItem s l =
        (.other, { s with writes := s.writes + 1 }) := by
      intro l
      unfold Hist.setItem
      rw [hun]
      simp
    have hres : (Hist.saveComparison idStr now inputText result tags notes s).1 = none ∧
        (Hist.saveComparison idStr now inputText result tags notes s).2.blob = s.blob := by
      simp only [Hist.saveComparison]
      by_cases he : (Hist.mkCandidate idStr now inputText result tags notes).inputText = ""
      · rw [if_pos he]
        exact ⟨rfl, rfl⟩
      · rw [if_neg he]
        by_cases hsz : Hist.MAX_ITEM_SIZE < Hist.estimateItemSize
            (Hist.mkCandidate idStr now inputText result tags notes)
        · rw [if_pos hsz]
          exact ⟨rfl, rfl⟩
        · rw [if_neg hsz, hgh]
          simp only [hset, ite_self]
          exact ⟨trivial, trivial⟩
    exact ⟨hres.1, hres.2, by rw [hgh]⟩
  · intro s t havail hcor
    unfold Hist.getHistory
    rw [if_pos havail, hcor]
    refine ⟨rfl, ?_⟩
    show (Hist.removeItem s).blob = .absent
    unfold Hist.removeItem
    rw [if_pos havail]
  · intro T now s hq
    exact (Cache.save_clean_blob_quota (T := T) 4).1 now s hq

/-- A valid small store (absent blob) over an always-quota adapter. -/
def c7store : Hist.Store :=
  { avail := true, blob := .absent, othersSize := 0, writes := 0,
    failAt := fun _ => .quota }

/-- An unavailable-adapter store. -/
def c7storeUn : Hist.Store :=
  { avail := false, blob := .absent, othersSize := 0, writes := 0,
    failAt := fun _ => .ok }

/-- A store holding an unparsable blob. -/
def c7storeCor : Hist.Store :=
  { avail := true, blob := .corrupt "not json", othersSize := 0, writes := 0,
    failAt := fun _ => .ok }

/-- Witness for C7 at concrete inputs: the three adapter-failure modes on
the history store and the all-quota cache write. -/
theorem claim_C7_witness :
    ((Hist.saveComparison "i" 1 "hello" "\x7b\x7d" none none c7store).1 = none ∧
      (Hist.saveComparison "i" 1 "hello" "\x7b\x7d" none none c7store).2.writes = 2) ∧
    (Hist.saveComparison "i" 1 "hello" "\x7b\x7d" none none c7storeUn).1 = none ∧
    (Hist.getHistory c7storeCor).1 = [] ∧
    (Cache.saveToStorageF 4 1 c8state).blob = some [] := by
  have h1 := claim_C7.1 "i" 1 "hello" "\x7b\x7d" none none c7store rfl (fun _ => rfl)
    rfl (by decide) (by decide)
  have h2 := claim_C7.2.1 "i" 1 "hello" "\x7b\x7d" none none c7storeUn rfl
  have h3 := claim_C7.2.2.1 c7storeCor "not json" rfl rfl
  have h4 := claim_C7.2.2.2 Nat 1 c8state (fun _ => rfl)
  exact ⟨⟨h1.1, h1.2.2⟩, h2.1, h3.1, h4⟩

/-- The pristine adapter of the history-store scenarios: available, no
stored blob, no foreign keys, all writes succeeding. -/
def hist0 : Hist.Store :=
  { avail := true, blob := .absent, othersSize := 0, writes := 0,
    failAt := fun _ => .ok }

/-- Claim C4 (amended): along every trace of public history-store
operations from a state within budget, `load()` returns at most
`MAX_HISTORY_ITEMS` items, and — provided the trace contains no
`updateComparison` call — their estimated sizes sum to at most
`MAX_TOTAL_SIZE`. -/
theorem claim_C4_amended (s : Hist.Store) (ops : List Hist.HOp)
    (hc : Hist.HCount s) (hs : Hist.HSize s) :
    (Hist.getHistory (Hist.runH s ops)).1.length ≤ Hist.MAX_HISTORY_ITEMS ∧
    (Hist.hasUpd ops = false →
      ((Hist.getHistory (Hist.runH s ops)).1.map Hist.estimateItemSize).sum ≤
        Hist.MAX_TOTAL_SIZE) :=
  ⟨Hist.load_length_of_HCount _ (Hist.HCount_runH s ops hc),
   fun hupd => Hist.load_sum_of_HSize _ (Hist.HSize_runH s ops hs hupd)⟩

/-- Witness for C4 (amended) at the pristine adapter and a single save. -/
theorem claim_C4_witness :
    (Hist.getHistory (Hist.runH hist0
        [Hist.HOp.save "a" 1 "X" "\x7b\x7d" none none])).1.length ≤
      Hist.MAX_HISTORY_ITEMS ∧
    (Hist.hasUpd [Hist.HOp.save "a" 1 "X" "\x7b\x7d" none none] = false →
      ((Hist.getHistory (Hist.runH hist0
          [Hist.HOp.save "a" 1 "X" "\x7b\x7d" none none])).1.map
        Hist.estimateItemSize).sum ≤ Hist.MAX_TOTAL_SIZE) :=
  claim_C4_amended hist0 [Hist.HOp.save "a" 1 "X" "\x7b\x7d" none none]
    (fun raws h => Hist.Blob.noConfusion h) (fun raws h => Hist.Blob.noConfusion h)

/-- Ten-megabyte notes text used to break the byte budget through
`updateComparison`. -/
def bigNotes : String := String.mk (List.replicate Hist.MAX_TOTAL_SIZE 'c')

/-- The single surviving history item of the C4 counterexample trace. -/
def c4item : Hist.SavedComparison :=
  { id := "a", timestamp := 5, inputText := "X", result := "\x7b\x7d", tags := none,
    notes := some bigNotes }

/-- C4 counterexample trace: one small save, then an update patching in
oversized notes (`updateComparison` rewrites without re-pruning). -/
def c4trace : List Hist.HOp :=
  [Hist.HOp.save "a" 5 "X" "\x7b\x7d" none none,
   Hist.HOp.update "a" none (some bigNotes)]

/-- A one-item load whose item overshoots the byte budget by 63 bytes. -/
theorem singleton_sum_over_budget (l : List Hist.SavedComparison)
    (x : Hist.SavedComparison) (hl : l = [x])
    (hx : Hist.estimateItemSize x = 63 + Hist.MAX_TOTAL_SIZE) :
    Hist.MAX_TOTAL_SIZE < (l.map Hist.estimateItemSize).sum := by
  subst hl
  rw [List.map_cons, List.map_nil, List.sum_cons, List.sum_nil, hx]
  omega

/-- Claim C4 counterexample: the state reached from the pristine adapter
by `save("X", \x7b\x7d)` then `update(id, notes := 'c' * MAX_TOTAL_SIZE)` is
reachable through public operations, yet the estimated sizes of `load()`
sum to `63 + MAX_TOTAL_SIZE`, exceeding the byte budget —
`updateComparison` writes without re-running `cleanupOldItems`. -/
theorem claim_C4_counterexample :
    Hist.MAX_TOTAL_SIZE <
      ((Hist.getHistory (Hist.runH hist0 c4trace)).1.map Hist.estimateItemSize).sum := by
  have h1 : (Hist.getHistory (Hist.runH hist0 c4trace)).1 = [c4item] := rfl
  have hesc : utf8Len (jsonEscape bigNotes) = Hist.MAX_TOTAL_SIZE := by
    show utf8Len (String.mk (jsonEscapeList (List.replicate Hist.MAX_TOTAL_SIZE 'c'))) = _
    rw [jsonEscapeList_replicate_of_plain _ _ (by decide)]
    exact utf8Len_replicate _ 'c' (by decide)
  have h2 : Hist.estimateItemSize c4item = 63 + Hist.MAX_TOTAL_SIZE := by
    have hser : Hist.serializeItem c4item =
        "\x7b\"id\":\"" ++ jsonEscape "a" ++ "\",\"timestamp\":" ++ toString (5 : Nat) ++
        ",\"inputText\":\"" ++ jsonEscape "X" ++ "\",\"result\":" ++ "\x7b\x7d" ++ "" ++
        (",\"notes\":\"" ++ jsonEscape bigNotes ++ "\"") ++ "\x7d" := rfl
    show utf8Len (Hist.serializeItem c4item) = _
    rw [hser]
    simp only [utf8Len_append]
    rw [hesc]
    decide
  exact singleton_sum_over_budget _ c4item h1 h2

end TokOpt
